import Mathlib

/-!
# semaphore-mtb: batch Merkle update circuit, input hash and Keccak gadget

A shallow embedding of `prover/circuit.go`, `prover/proving_system.go` and
`keccak/keccak.go`.

Conventions of the embedding.

* A `frontend.Variable` is evaluated on a witness: it is the canonical
  representative (a natural number below `fieldModulus`) of an element of the
  BN254 scalar field, the curve named in `Setup`.
* Building and solving the constraints is one pass in program order.  The pass
  stops at the first assertion that does not hold or at the first Go run-time
  panic; `Failure` says which.  A run that reaches the end returns `.ok`.
* The Poseidon sponge behind `nodeSum` is a parameter `H`, the two-to-one hash
  obtained from `Write(a, b); Sum(); Reset()`.
* A Go slice is a `List`; a fixed-size Go array `[n]T` is a function `Fin n → T`.
* keccak.go receives its gates in the argument `api`: here a record `API` of the
  three gates it calls, of which `gnarkApi` is gnark's arithmetic.  The tables
  `R` (rotation offsets) and `RC` (round constants) are parameters as well.
* A wire that was declared and never assigned (a nil `frontend.Variable`) is
  `none`; a gate that receives it stops the run with `Failure.nilVariable`.
-/

namespace Mtb

deriving instance DecidableEq for Except

/-! ## Outcomes -/

/-- Reasons for which a run of the circuit on a witness stops early. -/
inductive Failure
  /-- Go run-time panic: slice or array index out of range. -/
  | indexOutOfRange
  /-- A `frontend.Variable` that was declared but never assigned reaches a gate. -/
  | nilVariable
  /-- Constraint `api.AssertIsBoolean` on a value other than 0 and 1. -/
  | notBoolean
  /-- The recomposition constraint of `api.ToBinary` has no solution. -/
  | binaryDecomposition
  /-- Constraint `api.AssertIsEqual(circuit.InputHash, sum)`, circuit.go line 61. -/
  | inputHashMismatch
  /-- Constraint `api.AssertIsEqual(root, prevRoot)`, circuit.go line 76, in
  iteration `step`. -/
  | emptySlotMismatch (step : Nat)
  /-- Constraint `api.AssertIsEqual(root, circuit.PostRoot)`, circuit.go line 86. -/
  | postRootMismatch
  /-- The bound given to a `for cond` loop of the model was reached while `cond`
  still held. -/
  | outOfFuel
  deriving DecidableEq, Repr

/-- Order of the BN254 scalar field (`ecc.BN254` in `Setup`). -/
def fieldModulus : Nat :=
  21888242871839275222246405745257275088548364400416034343698204186575808495617

/-- Slice indexing `l[i]`, which panics when `i` is out of range. -/
def index {α : Type} (l : List α) (i : Nat) : Except Failure α :=
  match l[i]? with
  | some x => .ok x
  | none => .error .indexOutOfRange

/-! ## The gates of `frontend.API` used by the circuit -/

/-- Field addition, `api.Add`. -/
def api.Add (a b : Nat) : Nat := (a + b) % fieldModulus

/-- Constraint `b * (1 - b) = 0`, `api.AssertIsBoolean`. -/
def api.AssertIsBoolean (b : Nat) : Except Failure Unit :=
  if b = 0 ∨ b = 1 then .ok () else .error .notBoolean

/-- Gate `api.Select(b, x, y)`: `x` when the boolean `b` is set, `y` otherwise. -/
def api.Select (b x y : Nat) : Nat := if b = 1 then x else y

/-- Constraint `a = b`, `api.AssertIsEqual`; `f` names the call site. -/
def api.AssertIsEqual (a b : Nat) (f : Failure) : Except Failure Unit :=
  if a = b then .ok () else .error f

/-- Gadget `api.ToBinary(v, n)`: the solver fills `n` wires with the low bits of
`v`, least significant first, each asserted boolean, and the gadget asserts that
they recompose to `v`.  For a canonical `v` that holds exactly when `v < 2 ^ n`. -/
def api.ToBinary (v n : Nat) : Except Failure (List Nat) :=
  if v < 2 ^ n then .ok ((List.range n).map fun k => v / 2 ^ k % 2)
  else .error .binaryDecomposition

/-- Gadget `api.FromBinary`: recomposition of little-endian bits in the field. -/
def api.FromBinary (bits : List Nat) : Nat :=
  (bits.foldr (fun b acc => b + 2 * acc) 0) % fieldModulus

/-! ## `circuit.go` -/

/-- Constant `emptyLeaf`. -/
def emptyLeaf : Nat := 0

/-- Function `nodeSum`: `h.Write(a, b); res := h.Sum(); h.Reset()`. -/
def nodeSum (H : Nat → Nat → Nat) (a b : Nat) : Nat := H a b

/-- Loop of `VerifyProof` from index `i` on: `sum` is the accumulator, the
second argument is `proofSet[i:]` and the third is `helper[i-1:]`. -/
def VerifyProof.loop (H : Nat → Nat → Nat) : Nat → List Nat → List Nat → Except Failure Nat
  | sum, [], _ => .ok sum
  | _, _ :: _, [] => .error .indexOutOfRange
  | sum, s :: proofSet, b :: helper => do
    api.AssertIsBoolean b
    let d1 := api.Select b s sum
    let d2 := api.Select b sum s
    VerifyProof.loop H (nodeSum H d1 d2) proofSet helper

/-- Function `VerifyProof(api, h, proofSet, helper)`. -/
def VerifyProof (H : Nat → Nat → Nat) (proofSet helper : List Nat) : Except Failure Nat :=
  match proofSet with
  | [] => .error .indexOutOfRange
  | leaf :: siblings => VerifyProof.loop H leaf siblings helper

/-- Struct `MbuCircuit`, every variable evaluated on the witness. -/
structure MbuCircuit where
  InputHash : Nat
  StartIndex : Nat
  PreRoot : Nat
  PostRoot : Nat
  IdComms : List Nat
  MerkleProofs : List (List Nat)
  BatchSize : Nat
  Depth : Nat
  deriving DecidableEq, Repr

/-- Direction bits of iteration `i` of `Define`:
`currentPath := api.ToBinary(api.Add(circuit.StartIndex, i), circuit.Depth)`. -/
def MbuCircuit.currentPath (c : MbuCircuit) (i : Nat) : Except Failure (List Nat) :=
  api.ToBinary (api.Add c.StartIndex i) c.Depth

/-- Body of the insertion loop of `Define` (circuit.go lines 71 to 82) for index
`i`, entered with `prevRoot`; the value returned is the new `root`. -/
def MbuCircuit.insertion (H : Nat → Nat → Nat) (c : MbuCircuit) (i prevRoot : Nat) :
    Except Failure Nat := do
  let currentPath ← c.currentPath i
  -- Verify proof for empty leaf.
  let proof ← index c.MerkleProofs i
  let root ← VerifyProof H (emptyLeaf :: proof) currentPath
  api.AssertIsEqual root prevRoot (.emptySlotMismatch i)
  -- Verify proof for idComm.
  let idComm ← index c.IdComms i
  let proof ← index c.MerkleProofs i
  VerifyProof H (idComm :: proof) currentPath

/-- Insertion loop of `Define`, `n` iterations starting at index `i`.  The state
is `(prevRoot, root)`; `root` is `none` while the Go variable is still nil.  The
value returned is `root` after the loop. -/
def MbuCircuit.insertions (H : Nat → Nat → Nat) (c : MbuCircuit) :
    Nat → Nat → Nat → Option Nat → Except Failure (Option Nat)
  | 0, _, _, root => .ok root
  | n + 1, i, prevRoot, _ => do
    let root ← c.insertion H i prevRoot
    MbuCircuit.insertions H c n (i + 1) root (some root)

/-- Variable `root` of `Define` when the insertion loop is left. -/
def MbuCircuit.finalRoot (H : Nat → Nat → Nat) (c : MbuCircuit) : Except Failure (Option Nat) :=
  c.insertions H c.BatchSize 0 c.PreRoot none

/-- Batch Merkle proof verification of `Define`, circuit.go lines 63 to 88. -/
def MbuCircuit.merkle (H : Nat → Nat → Nat) (c : MbuCircuit) : Except Failure Unit := do
  let root ← c.finalRoot H
  match root with
  | none => .error .nilVariable
  | some r => api.AssertIsEqual r c.PostRoot .postRootMismatch

/-- Bits written to the Keccak gadget by `Define`, circuit.go lines 54 to 59:
`StartIndex` on 32 bits, then `PreRoot`, `PostRoot` and `IdComms[0..BatchSize)` on
256 bits each. -/
def MbuCircuit.hashInput (c : MbuCircuit) : Except Failure (List Nat) := do
  let s ← api.ToBinary c.StartIndex 32
  let pre ← api.ToBinary c.PreRoot 256
  let post ← api.ToBinary c.PostRoot 256
  let ids ← (List.range c.BatchSize).mapM fun i => do
    let v ← index c.IdComms i
    api.ToBinary v 256
  pure (s ++ pre ++ post ++ ids.flatten)

/-- Method `MbuCircuit.Define`.  The gadget behind `keccak.NewKeccak256`, `Write`
and `Sum` is the parameter `kh`, from the written bits to the 256 digest bits. -/
def MbuCircuit.Define (H : Nat → Nat → Nat) (kh : List Nat → Except Failure (List Nat))
    (c : MbuCircuit) : Except Failure Unit := do
  let written ← c.hashInput
  let digest ← kh written
  let sum := api.FromBinary digest
  api.AssertIsEqual c.InputHash sum .inputHashMismatch
  c.merkle H

/-! ## `proving_system.go` -/

/-- Struct `Parameters`; a `big.Int` is an integer, `StartIndex` a `uint32`. -/
structure Parameters where
  InputHash : Int
  StartIndex : Nat
  PreRoot : Int
  PostRoot : Int
  IdComms : List Int
  MerkleProofs : List (List Int)
  deriving DecidableEq, Repr

/-- The three errors built by `ValidateShape`, with the number each one prints. -/
inductive ShapeError
  /-- Message "wrong number of identity commitments: n". -/
  | wrongNumberOfIdComms (n : Nat)
  /-- Message "wrong number of merkle proofs: n". -/
  | wrongNumberOfMerkleProofs (n : Nat)
  /-- Message "wrong size of merkle proof for proof i: n". -/
  | wrongSizeOfMerkleProof (i n : Nat)
  deriving DecidableEq, Repr

/-- Loop `for i, proof := range p.MerkleProofs` of `ValidateShape`, from index `i`. -/
def Parameters.ValidateShape.loop (treeDepth : Nat) : Nat → List (List Int) → Option ShapeError
  | _, [] => none
  | i, proof :: rest =>
    if proof.length ≠ treeDepth then some (.wrongSizeOfMerkleProof i proof.length)
    else Parameters.ValidateShape.loop treeDepth (i + 1) rest

/-- Method `Parameters.ValidateShape`; `none` is the nil error. -/
def Parameters.ValidateShape (p : Parameters) (treeDepth batchSize : Nat) : Option ShapeError :=
  if p.IdComms.length ≠ batchSize then some (.wrongNumberOfIdComms p.IdComms.length)
  else if p.MerkleProofs.length ≠ batchSize then
    some (.wrongNumberOfMerkleProofs p.MerkleProofs.length)
  else Parameters.ValidateShape.loop treeDepth 0 p.MerkleProofs

/-- Method `(*big.Int).Bytes`, most significant byte first: `acc` holds the
bytes already produced, `fuel` bounds the number of divisions. -/
def bigIntBytes.go : Nat → Nat → List Nat → List Nat
  | 0, _, acc => acc
  | fuel + 1, n, acc => if n = 0 then acc else bigIntBytes.go fuel (n / 256) (n % 256 :: acc)

/-- Method `(*big.Int).Bytes`: the big-endian bytes of the absolute value,
without leading zero bytes (no byte at all for zero). -/
def bigIntBytes (x : Int) : List Nat := bigIntBytes.go x.natAbs x.natAbs []

/-- Function `toBytesLE`: swaps `b[i]` and `b[len(b)-i-1]` for `i < len(b)/2`. -/
def toBytesLE (b : List Nat) : List Nat :=
  (List.range (b.length / 2)).foldl
    (fun b i => (b.set i (b.getD (b.length - i - 1) 0)).set (b.length - i - 1) (b.getD i 0)) b

/-- Call `binary.Write(buf, binary.LittleEndian, p.StartIndex)` on a `uint32`. -/
def uint32LE (x : Nat) : List Nat :=
  [x % 256, x / 256 % 256, x / 65536 % 256, x / 16777216 % 256]

/-- Bytes appended for one identity commitment: `toBytesLE(v.Bytes())`, extended
with zero bytes up to 32 when shorter. -/
def idCommBytes (v : Int) : List Nat :=
  let bytes := toBytesLE (bigIntBytes v)
  if bytes.length < 32 then bytes ++ List.replicate (32 - bytes.length) 0 else bytes

/-- The slice `data` of `ComputeInputHash` when it is handed to `keccak256.Hash`. -/
def Parameters.hashedData (p : Parameters) : List Nat :=
  let data : List Nat := []
  let data := data ++ uint32LE p.StartIndex
  let data := data ++ toBytesLE (bigIntBytes p.PreRoot)
  let data := data ++ toBytesLE (bigIntBytes p.PostRoot)
  p.IdComms.foldl (fun data v => data ++ idCommBytes v) data

/-- Method `(*big.Int).SetBytes`: the value of big-endian bytes. -/
def setBytes (b : List Nat) : Int := Int.ofNat (b.foldl (fun acc x => acc * 256 + x) 0)

/-- Method `Parameters.ComputeInputHash`, with `keccak256.Hash` as a parameter. -/
def Parameters.ComputeInputHash (keccak256 : List Nat → List Nat) (p : Parameters) : Parameters :=
  { p with InputHash := setBytes (toBytesLE (keccak256 p.hashedData)) }

/-- Struct `ProvingSystem`, without the keys and the constraint system. -/
structure ProvingSystem where
  TreeDepth : Nat
  BatchSize : Nat
  deriving DecidableEq, Repr

/-- Errors of `Prove`. -/
inductive ProveError
  /-- The error returned by `ValidateShape`. -/
  | shape (e : ShapeError)
  /-- Go run-time panic: index out of range. -/
  | indexOutOfRange
  /-- Error of `frontend.NewWitness` or `groth16.Prove`. -/
  | backend
  deriving DecidableEq, Repr

/-- Slice indexing in `Prove`. -/
def readAt {α : Type} (l : List α) (i : Nat) : Except ProveError α :=
  match l[i]? with
  | some x => .ok x
  | none => .error .indexOutOfRange

/-- Assignment of a `big.Int` to a circuit variable: its residue in the field. -/
def toField (x : Int) : Nat := (x % (fieldModulus : Int)).toNat

/-- Method `ProvingSystem.Prove`.  The witness construction and `groth16.Prove`
on the keys of `ps` are the parameter `groth16Prove`. -/
def ProvingSystem.Prove {π : Type} (ps : ProvingSystem)
    (groth16Prove : MbuCircuit → Except ProveError π) (params : Parameters) : Except ProveError π :=
  match params.ValidateShape ps.TreeDepth ps.BatchSize with
  | some err => .error (.shape err)
  | none => do
    let idComms ← (List.range ps.BatchSize).mapM fun i => readAt params.IdComms i
    let proofs ← (List.range ps.BatchSize).mapM fun i =>
      (List.range ps.TreeDepth).mapM fun j => do
        let proof ← readAt params.MerkleProofs i
        readAt proof j
    groth16Prove
      { InputHash := toField params.InputHash
        StartIndex := params.StartIndex
        PreRoot := toField params.PreRoot
        PostRoot := toField params.PostRoot
        IdComms := idComms.map toField
        MerkleProofs := proofs.map fun proof => proof.map toField
        BatchSize := 0
        Depth := 0 }

/-! ## `keccak.go` -/

/-- Constant `laneSize`. -/
abbrev laneSize : Nat := 64

/-- Constant `blockSize`. -/
abbrev blockSize : Nat := 1088

/-- Function `rot`: `c[i] = a[(i+r)%len(a)]`, for a shift `r` that is not
negative.  The wires are of any type: `rot` calls no gate of `api`. -/
def rot {α : Type} (a : Fin laneSize → α) (r : Nat) : Fin laneSize → α :=
  fun i => a ⟨(i.val + r) % laneSize, Nat.mod_lt _ (by decide)⟩

/-- Slice `P` of `Keccak` after `make` and the copy loop, keccak.go lines 76 to
79; `none` is an entry that was never assigned (a nil `frontend.Variable`). -/
def Keccak.alloc (inputBits : List Nat) : List (Option Nat) :=
  (List.range inputBits.length).foldl (fun P i => P.set i inputBits[i]?)
    (List.replicate (inputBits.length + (blockSize - inputBits.length % blockSize)) none)

/-- Padding step of `Keccak`, keccak.go lines 76 to 86: the slice `P` when line
88 is reached. -/
def Keccak.padding (inputBits : List Nat) : Except Failure (List (Option Nat)) :=
  let P := Keccak.alloc inputBits
  if inputBits.length % blockSize ≠ 0 then
    let P := (List.range' inputBits.length (P.length - inputBits.length)).foldl
      (fun P i => P.set i (some 0)) P
    if inputBits.length + 7 < P.length then .ok (P.set (inputBits.length + 7) (some 1))
    else .error .indexOutOfRange
  else .ok P

/-- Constant `stateSize`. -/
abbrev stateSize : Nat := 5

/-- Constant `outSize`. -/
abbrev outSize : Nat := 256

/-- The gates of `frontend.API` called by keccak.go, on evaluated wires.  Every
function of keccak.go receives them as its first argument `api`. -/
structure API where
  Xor : Nat → Nat → Nat
  And : Nat → Nat → Nat
  Sub : Nat → Nat → Nat

/-- The gates as gnark evaluates them in the field: `a + b - 2ab`, `ab` and
`a - b`.  (`Xor` and `And` also constrain their operands to be boolean.) -/
def gnarkApi : API where
  Xor := fun a b => (a + b + (fieldModulus - 2) * (a * b)) % fieldModulus
  And := fun a b => (a * b) % fieldModulus
  Sub := fun a b => (a + (fieldModulus - b % fieldModulus)) % fieldModulus

/-- Type `[laneSize]frontend.Variable` of assigned wires. -/
abbrev Lane : Type := Fin laneSize → Nat

/-- Type `[stateSize][stateSize][laneSize]frontend.Variable` of assigned wires. -/
abbrev State : Type := Fin stateSize → Fin stateSize → Lane

/-- Type `[stateSize][5 * stateSize][laneSize]frontend.Variable` of the variable
`B` of `round`; `none` is a lane whose wires are still nil. -/
abbrev Grid : Type := Fin stateSize → Fin (5 * stateSize) → Option Lane

/-- Index expression `n % stateSize`. -/
def idx5 (n : Nat) : Fin stateSize := ⟨n % stateSize, Nat.mod_lt _ (by decide)⟩

/-- A row or column index below `stateSize` used as second index of `B`. -/
def col25 (y : Fin stateSize) : Fin (5 * stateSize) := ⟨y.val, by have := y.isLt; omega⟩

/-- Function `xor`: `c[i] = api.Xor(a[i], b[i])`. -/
def xor (api : API) (a b : Lane) : Lane := fun i => api.Xor (a i) (b i)

/-- Function `and`: `c[i] = api.And(a[i], b[i])`. -/
def and (api : API) (a b : Lane) : Lane := fun i => api.And (a i) (b i)

/-- Function `not`: `c[i] = api.Sub(1, a[i])`. -/
def not (api : API) (a : Lane) : Lane := fun i => api.Sub 1 (a i)

/-- Assignment `A[x][y] = v` on a state. -/
def State.set (A : State) (x y : Fin stateSize) (v : Lane) : State :=
  fun x2 y2 => if x2 = x ∧ y2 = y then v else A x2 y2

/-- Assignment `B[a][b] = v` on the variable `B` of `round`. -/
def Grid.set (B : Grid) (a : Fin stateSize) (b : Fin (5 * stateSize)) (v : Lane) : Grid :=
  fun a2 b2 => if a2 = a ∧ b2 = b then some v else B a2 b2

/-- Read of the lane `B[a][b]`, whose wires go to a gate. -/
def Grid.read (B : Grid) (a : Fin stateSize) (b : Fin (5 * stateSize)) : Except Failure Lane :=
  match B a b with
  | some v => .ok v
  | none => .error .nilVariable

/-- Nested loops `for x := 0; x < stateSize; x += 1 { for y := 0; y < stateSize;
y += 1 { body } }` on a loop state of type `β`. -/
def forXY {β : Type} (body : β → Fin stateSize → Fin stateSize → β) (init : β) : β :=
  (List.finRange stateSize).foldl
    (fun s x => (List.finRange stateSize).foldl (fun s y => body s x y) s) init

/-- Loop of `round` that fills `B`, keccak.go lines 52 to 57. -/
def round.rhoPi (R : Fin stateSize → Fin stateSize → Nat) (A : State) : Grid :=
  forXY (fun B x y => B.set y (col25 (idx5 (2 * x.val + 3 * y.val))) (rot (A x y) (R x y)))
    (fun _ _ => none)

/-- Cells of `B` assigned by the loop of keccak.go lines 53 to 57, in the order
of the assignments. -/
def round.rhoPiWrites : List (Fin stateSize × Fin (5 * stateSize)) :=
  forXY (fun w x y => w ++ [(y, col25 (idx5 (2 * x.val + 3 * y.val)))]) []

/-- Array `C` of `round`, keccak.go lines 25 to 31. -/
def round.C (api : API) (A : State) : Fin stateSize → Lane := fun x =>
  let c := xor api (A x 0) (A x 1)
  let c := xor api c (A x 2)
  let c := xor api c (A x 3)
  xor api c (A x 4)

/-- Array `D` of `round`, keccak.go lines 34 to 42. -/
def round.D (api : API) (C : Fin stateSize → Lane) : Fin stateSize → Lane := fun x =>
  let tmp := rot (C (idx5 (x.val + 1))) 1
  let xx := if x.val = 0 then 5 else x.val
  xor api (C (idx5 (xx - 1))) tmp

/-- Loop `A[x][y] = xor(api, A[x][y], D[x])` of `round`, keccak.go lines 45 to 49. -/
def round.theta (api : API) (D : Fin stateSize → Lane) (A : State) : State :=
  forXY (fun A x y => A.set x y (xor api (A x y) (D x))) A

/-- Loop of `round` that reads `B` and overwrites `A`, keccak.go lines 60 to 65. -/
def round.chi (api : API) (B : Grid) (A : State) : Except Failure State :=
  forXY (fun (s : Except Failure State) x y => do
    let A ← s
    let b1 ← B.read (idx5 (x.val + 1)) (col25 y)
    let b2 ← B.read (idx5 (x.val + 2)) (col25 y)
    let tmp := and api (not api b1) b2
    let b0 ← B.read x (col25 y)
    pure (A.set x y (xor api b0 tmp))) (pure A)

/-- Function `round`; `R` is the table of rotation offsets. -/
def round (api : API) (R : Fin stateSize → Fin stateSize → Nat) (A : State) (RC : Lane) :
    Except Failure State := do
  -- C[x] = A[x,0] xor A[x,1] xor A[x,2] xor A[x,3] xor A[x,4]
  let C := round.C api A
  -- D[x] = C[x-1] xor rot(C[x+1],1)
  let D := round.D api C
  -- A[x,y] = A[x,y] xor D[x]
  let A := round.theta api D A
  -- B[y,2*x+3*y] = rot(A[x,y], r[x,y])
  let B := round.rhoPi R A
  -- A[x,y] = B[x,y] xor ((not B[x+1,y]) and B[x+2,y])
  let A ← round.chi api B A
  -- A[0,0] = A[0,0] xor RC
  pure (A.set 0 0 (xor api (A 0 0) RC))

/-- Function `keccakf`; `RC` is the table of the 24 round constants. -/
def keccakf (api : API) (R : Fin stateSize → Fin stateSize → Nat) (RC : Fin 24 → Lane)
    (A : State) : Except Failure State :=
  (List.finRange 24).foldlM (fun A i => round api R A (RC i)) A

/-- Slice `tmp` of `Keccak`, keccak.go lines 92 to 96. -/
def Keccak.mask (n : Nat) : List Nat := (List.replicate n 0).set (n - 8) 0

/-- Loop `P[i] = api.Xor(P[i], tmp[i])` of `Keccak`, keccak.go lines 98 to 100. -/
def Keccak.xorPass (api : API) : List (Option Nat) → List Nat → Except Failure (List Nat)
  | [], _ => .ok []
  | _ :: _, [] => .error .indexOutOfRange
  | none :: _, _ :: _ => .error .nilVariable
  | some p :: P, t :: tmp => do
    let rest ← Keccak.xorPass api P tmp
    pure (api.Xor p t :: rest)

/-- Lane `Pi` of keccak.go line 118: the copy of `P[i+k*laneSize : i+(k+1)*laneSize]`. -/
def Keccak.block (P : List Nat) (i k : Nat) : Except Failure Lane :=
  if i + (k + 1) * laneSize ≤ P.length then .ok (fun z => P.getD (i + k * laneSize + z.val) 0)
  else .error .indexOutOfRange

/-- Loops over `x` and `y` of the absorbing phase for the block that starts at
`i`, keccak.go lines 114 to 122. -/
def Keccak.absorbBlock (api : API) (P : List Nat) (i : Nat) (S : State) : Except Failure State :=
  forXY (fun (s : Except Failure State) x y => do
    let S ← s
    if x.val + 5 * y.val < blockSize / laneSize then
      let Pi ← Keccak.block P i (x.val + 5 * y.val)
      pure (S.set x y (xor api (S x y) Pi))
    else pure S) (pure S)

/-- Initialization and absorbing phase of `Keccak`, keccak.go lines 103 to 125;
the loop `for i := 0; i < len(P); i += blockSize` runs for `i = k * blockSize`. -/
def Keccak.absorb (api : API) (R : Fin stateSize → Fin stateSize → Nat) (RC : Fin 24 → Lane)
    (P : List Nat) : Except Failure State :=
  (List.range ((P.length + blockSize - 1) / blockSize)).foldlM
    (fun S k => do
      let S ← Keccak.absorbBlock api P (k * blockSize) S
      keccakf api R RC S)
    (fun _ _ _ => 0)

/-- Call `copy(Z[i:], lane[:])` on the output array, whose entries start nil. -/
def Keccak.copy (Z : Fin outSize → Option Nat) (i : Nat) (lane : Lane) : Fin outSize → Option Nat :=
  fun j => if h : i ≤ j.val ∧ j.val < i + laneSize then some (lane ⟨j.val - i, by omega⟩) else Z j

/-- Loops over `x` and `y` of the squeezing phase, keccak.go lines 131 to 138, on
the loop state `(Z, i)`. -/
def Keccak.squeezePass (S : State) (Zi : (Fin outSize → Option Nat) × Nat) :
    (Fin outSize → Option Nat) × Nat :=
  forXY (fun Zi x y =>
    if Zi.2 < outSize ∧ x.val + 5 * y.val < blockSize / laneSize then
      (Keccak.copy Zi.1 Zi.2 (S x y), Zi.2 + laneSize)
    else Zi) Zi

/-- Loop `for i < outSize` of the squeezing phase, keccak.go lines 130 to 140,
run at most `fuel` times. -/
def Keccak.squeeze (api : API) (R : Fin stateSize → Fin stateSize → Nat) (RC : Fin 24 → Lane) :
    Nat → (Fin outSize → Option Nat) × Nat → State → Except Failure (Fin outSize → Option Nat)
  | 0, Zi, _ => if Zi.2 < outSize then .error .outOfFuel else .ok Zi.1
  | fuel + 1, Zi, S =>
    if Zi.2 < outSize then do
      let Zi := Keccak.squeezePass S Zi
      let S ← keccakf api R RC S
      Keccak.squeeze api R RC fuel Zi S
    else .ok Zi.1

/-- Function `Keccak`; an entry `none` of the result is an output wire left nil. -/
def Keccak (api : API) (R : Fin stateSize → Fin stateSize → Nat) (RC : Fin 24 → Lane)
    (inputBits : List Nat) : Except Failure (Fin outSize → Option Nat) := do
  let P ← Keccak.padding inputBits
  let P ← Keccak.xorPass api P (Keccak.mask P.length)
  let S ← Keccak.absorb api R RC P
  Keccak.squeeze api R RC outSize (fun _ => none, 0) S

/-! ## Reference notions for the lanes -/

/-- Value of a lane of bits as a 64-bit word, index 0 being the least
significant bit. -/
def laneValue (a : Fin laneSize → Nat) : Nat :=
  ((List.finRange laneSize).map fun i => a i * 2 ^ i.val).sum

/-! ## Reference round of Keccak-f -/

/-- Column parity of theta: `C[x]` is the XOR of the five lanes `A[x][0..4]`. -/
def thetaC (api : API) (A : State) (x : Fin stateSize) : Lane :=
  xor api (xor api (xor api (xor api (A x 0) (A x 1)) (A x 2)) (A x 3)) (A x 4)

/-- Theta: `D[x] = C[(x-1) mod 5] XOR rot(C[(x+1) mod 5], 1)`. -/
def thetaD (api : API) (A : State) (x : Fin stateSize) : Lane :=
  xor api (thetaC api A (x - 1)) (rot (thetaC api A (x + 1)) 1)

/-- Theta: every cell `(x, y)` becomes `A[x][y] XOR D[x]`. -/
def theta (api : API) (A : State) : State :=
  fun x y => xor api (A x y) (thetaD api A x)

/-- Rho and pi: the grid `B` with `B[y][(2x+3y) mod 5] = rot(A[x][y], R[x][y])`,
given at cell `(a, b)` through the inverse `(x, y) = ((a + 3b) mod 5, a)`. -/
def rhoPi (R : Fin stateSize → Fin stateSize → Nat) (A : State) : State :=
  fun a b => rot (A (a + 3 * b) a) (R (a + 3 * b) a)

/-- Chi: `B[x][y] XOR ((NOT B[(x+1) mod 5][y]) AND B[(x+2) mod 5][y])`. -/
def chi (api : API) (B : State) : State :=
  fun x y => xor api (B x y) (and api (not api (B (x + 1) y)) (B (x + 2) y))

/-- Iota: cell `(0, 0)` is XORed with the round constant. -/
def iota (api : API) (A : State) (RC : Lane) : State :=
  fun x y => if x = 0 ∧ y = 0 then xor api (A 0 0) RC else A x y

/-- Reference round: theta, then rho and pi, then chi, then iota. -/
def roundRef (api : API) (R : Fin stateSize → Fin stateSize → Nat) (A : State) (RC : Lane) :
    State :=
  iota api (chi api (rhoPi R (theta api A))) RC

/-- Reference permutation: the 24 rounds in sequence, round `i` with `RC i`. -/
def keccakfRef (api : API) (R : Fin stateSize → Fin stateSize → Nat) (RC : Fin 24 → Lane)
    (A : State) : State :=
  (List.finRange 24).foldl (fun A i => roundRef api R A (RC i)) A

/-! ## Reference notions for the sponge -/

/-- The all-zero state of keccak.go lines 103 to 110. -/
def zeroState : State := fun _ _ _ => 0

/-- One block XORed into the state: bit `P[i + k]`, `k < 1088`, goes to the
wire `S[x][y][z]` with `x + 5y = k / 64` and `z = k % 64`; the lanes with
`x + 5y ≥ 17` are kept. -/
def blockXor (api : API) (P : List Nat) (i : Nat) (S : State) : State :=
  fun x y z =>
    if x.val + 5 * y.val < 17 then
      api.Xor (S x y z) (P.getD (i + (x.val + 5 * y.val) * 64 + z.val) 0)
    else S x y z

/-- Absorbing phase on a stream of `len(P) / 1088` blocks: starting from the
all-zero state, each block is XORed in and followed by one permutation. -/
def absorbRef (api : API) (R : Fin stateSize → Fin stateSize → Nat) (RC : Fin 24 → Lane)
    (P : List Nat) : State :=
  (List.range (P.length / 1088)).foldl
    (fun S k => keccakfRef api R RC (blockXor api P (k * 1088) S)) zeroState

/-- Output `S[0][0] ++ S[0][1] ++ S[0][2] ++ S[0][3]`: bit `64k + z` is wire `z`
of the lane `S[0][k]`. -/
def columnLanes (S : State) : Fin outSize → Option Nat :=
  fun j => some (S 0 (idx5 (j.val / 64)) ⟨j.val % 64, Nat.mod_lt _ (by decide)⟩)

/-- Output `S[0][0] ++ S[1][0] ++ S[2][0] ++ S[3][0]`: bit `64k + z` is wire `z`
of the lane `S[k][0]`, the lane with `x + 5y = k` that absorbing fills from
bits `[64k, 64k + 64)` of a block. -/
def rowLanes (S : State) : Fin outSize → Option Nat :=
  fun j => some (S (idx5 (j.val / 64)) 0 ⟨j.val % 64, Nat.mod_lt _ (by decide)⟩)

/-! ## Reference fold for `VerifyProof` -/

/-- One level of the Merkle path: bit 0 keeps accumulated-then-sibling order,
any other bit swaps the two. -/
def combine (H : Nat → Nat → Nat) (acc : Nat) (sb : Nat × Nat) : Nat :=
  if sb.2 = 0 then H acc sb.1 else H sb.1 acc

/-- Left fold of `combine` over the siblings paired with their direction bits. -/
def foldRoot (H : Nat → Nat → Nat) (leaf : Nat) (siblings bits : List Nat) : Nat :=
  (siblings.zip bits).foldl (combine H) leaf

/-- The hash `H` is injective on ordered pairs. -/
def CollisionFree (H : Nat → Nat → Nat) : Prop :=
  ∀ a b a2 b2, H a b = H a2 b2 → a = a2 ∧ b = b2

/-- The circuit with path `i` replaced by `proof`. -/
def MbuCircuit.withProof (c : MbuCircuit) (i : Nat) (proof : List Nat) : MbuCircuit :=
  { c with MerkleProofs := c.MerkleProofs.set i proof }

set_option maxRecDepth 100000

/-! ## Basic facts -/

theorem bind_eq_ok {α β : Type} (x : Except Failure α) (f : α → Except Failure β) (b : β) :
    (x >>= f) = .ok b ↔ ∃ a, x = .ok a ∧ f a = .ok b := by
  cases x with
  | error e => simp [bind, Except.bind]
  | ok a => simp [bind, Except.bind]

theorem index_eq_ok {α : Type} (l : List α) (i : Nat) (x : α) :
    index l i = .ok x ↔ l[i]? = some x := by
  unfold index
  cases h : l[i]? <;> simp

theorem loop_eq_foldRoot (H : Nat → Nat → Nat) (siblings : List Nat) :
    ∀ (bits : List Nat) (sum : Nat), bits.length = siblings.length →
      (∀ b ∈ bits, b = 0 ∨ b = 1) →
      VerifyProof.loop H sum siblings bits = .ok (foldRoot H sum siblings bits) := by
  induction siblings with
  | nil => intro bits sum _ _; simp [VerifyProof.loop, foldRoot]
  | cons s rest ih =>
    intro bits sum hlen hb
    cases bits with
    | nil => simp at hlen
    | cons b bs =>
      have hb0 : b = 0 ∨ b = 1 := hb b (by simp)
      have hrest := ih bs (nodeSum H (api.Select b s sum) (api.Select b sum s))
        (by simpa using hlen) (fun x hx => hb x (by simp [hx]))
      rcases hb0 with h0 | h1
      · subst h0
        simpa [VerifyProof.loop, api.AssertIsBoolean, bind, Except.bind, foldRoot, combine,
          api.Select, nodeSum] using hrest
      · subst h1
        simpa [VerifyProof.loop, api.AssertIsBoolean, bind, Except.bind, foldRoot, combine,
          api.Select, nodeSum] using hrest

theorem insertion_eq_ok (H : Nat → Nat → Nat) (c : MbuCircuit) (i prev root : Nat) :
    c.insertion H i prev = .ok root ↔
      ∃ bits proof idComm, c.currentPath i = .ok bits ∧ c.MerkleProofs[i]? = some proof ∧
        c.IdComms[i]? = some idComm ∧
        VerifyProof H (idComm :: proof) bits = .ok root ∧
        VerifyProof H (emptyLeaf :: proof) bits = .ok prev := by
  unfold MbuCircuit.insertion
  simp only [bind_eq_ok, index_eq_ok, api.AssertIsEqual]
  constructor
  · rintro ⟨bits, hb, proof, hp, r0, hr0, u, hu, idComm, hid, proof2, hp2, hv⟩
    have hpp : proof2 = proof := by rw [hp] at hp2; exact (Option.some.inj hp2).symm
    subst hpp
    have hr : r0 = prev := by
      by_contra hne
      simp [hne] at hu
    subst hr
    exact ⟨bits, proof2, idComm, hb, hp, hid, hv, hr0⟩
  · rintro ⟨bits, proof, idComm, hb, hp, hid, hv, hr0⟩
    exact ⟨bits, hb, proof, hp, prev, hr0, (), by simp, idComm, hid, proof, hp, hv⟩

theorem insertions_eq_ok (H : Nat → Nat → Nat) (c : MbuCircuit) :
    ∀ (n i prev : Nat) (root0 res : Option Nat),
      c.insertions H n i prev root0 = .ok res ↔
        ∃ r : Nat → Nat, r 0 = prev ∧
          (∀ j, j < n → c.insertion H (i + j) (r j) = .ok (r (j + 1))) ∧
          res = if n = 0 then root0 else some (r n) := by
  intro n
  induction n with
  | zero =>
    intro i prev root0 res
    simp only [MbuCircuit.insertions]
    constructor
    · intro h
      refine ⟨fun _ => prev, rfl, fun j hj => absurd hj (Nat.not_lt_zero j), ?_⟩
      simpa using (Except.ok.inj h).symm
    · rintro ⟨r, _, _, hres⟩
      simp at hres
      rw [hres]
  | succ n ih =>
    intro i prev root0 res
    simp only [MbuCircuit.insertions, bind_eq_ok, ih]
    constructor
    · rintro ⟨root1, h1, r, hr0, hstep, hres⟩
      refine ⟨fun j => match j with | 0 => prev | k + 1 => r k, rfl, ?_, ?_⟩
      · intro j hj
        cases j with
        | zero => simpa [hr0] using h1
        | succ k =>
          have := hstep k (by omega)
          simpa [Nat.add_assoc, Nat.add_comm 1 k] using this
      · by_cases hn : n = 0
        · subst hn
          simpa [hr0] using hres
        · simpa [hn] using hres
    · rintro ⟨r, hr0, hstep, hres⟩
      refine ⟨r 1, ?_, fun j => r (j + 1), rfl, ?_, ?_⟩
      · have := hstep 0 (by omega)
        simpa [hr0] using this
      · intro j hj
        have := hstep (j + 1) (by omega)
        simpa [Nat.add_assoc, Nat.add_comm 1 j] using this
      · by_cases hn : n = 0
        · subst hn
          simpa using hres
        · simpa [hn] using hres

theorem merkle_eq_ok (H : Nat → Nat → Nat) (c : MbuCircuit) :
    c.merkle H = .ok () ↔ c.finalRoot H = .ok (some c.PostRoot) := by
  unfold MbuCircuit.merkle
  simp only [bind_eq_ok]
  constructor
  · rintro ⟨root, hroot, h⟩
    cases root with
    | none => simp at h
    | some r =>
      have hr : r = c.PostRoot := by
        by_contra hne
        simp [api.AssertIsEqual, hne] at h
      rw [hroot, hr]
  · intro h
    exact ⟨some c.PostRoot, h, by simp [api.AssertIsEqual]⟩

/-- Chain of roots demanded by the insertion loop on indices `[0, n)`. -/
theorem merkle_ok_iff_chain (H : Nat → Nat → Nat) (c : MbuCircuit) (hN : 1 ≤ c.BatchSize) :
    c.merkle H = .ok () ↔
      ∃ r : Nat → Nat, r 0 = c.PreRoot ∧
        (∀ i, i < c.BatchSize → c.insertion H i (r i) = .ok (r (i + 1))) ∧
        r c.BatchSize = c.PostRoot := by
  rw [merkle_eq_ok, MbuCircuit.finalRoot, insertions_eq_ok]
  have hne : c.BatchSize ≠ 0 := by omega
  simp only [hne, if_false, Nat.zero_add, Option.some.injEq]
  constructor
  · rintro ⟨r, h0, hs, hp⟩
    exact ⟨r, h0, hs, hp.symm⟩
  · rintro ⟨r, h0, hs, hp⟩
    exact ⟨r, h0, hs, hp.symm⟩

theorem insertion_congr (H : Nat → Nat → Nat) (c1 c2 : MbuCircuit) (i j prev root : Nat)
    (hpath : c1.currentPath i = c2.currentPath j)
    (hproof : c1.MerkleProofs[i]? = c2.MerkleProofs[j]?)
    (hid : c1.IdComms[i]? = c2.IdComms[j]?) :
    c1.insertion H i prev = .ok root ↔ c2.insertion H j prev = .ok root := by
  rw [insertion_eq_ok, insertion_eq_ok, hpath, hproof, hid]

theorem add_shift (S N1 j : Nat) : api.Add S (N1 + j) = api.Add (S + N1) j := by
  unfold api.Add
  rw [Nat.add_assoc]

theorem finalRoot_of_merkle_ok (H : Nat → Nat → Nat) (c : MbuCircuit)
    (h : c.merkle H = .ok ()) : c.finalRoot H = .ok (some c.PostRoot) :=
  (merkle_eq_ok H c).1 h

/-- Splitting the insertion loop of a batch of `N1 + N2` after `N1` iterations. -/
theorem merkle_split (H : Nat → Nat → Nat) (ih1 ih2 ih3 S Pre Post D N1 N2 : Nat)
    (ids1 ids2 : List Nat) (mps1 mps2 : List (List Nat))
    (h1 : 1 ≤ N1) (h2 : 1 ≤ N2) (hi : ids1.length = N1) (hm : mps1.length = N1) :
    (MbuCircuit.mk ih1 S Pre Post (ids1 ++ ids2) (mps1 ++ mps2) (N1 + N2) D).merkle H = .ok () ↔
      ∃ M, (MbuCircuit.mk ih2 S Pre M ids1 mps1 N1 D).merkle H = .ok () ∧
        (MbuCircuit.mk ih3 (S + N1) M Post ids2 mps2 N2 D).merkle H = .ok () := by
  have hfirst : ∀ (M j prev root : Nat), j < N1 →
      ((MbuCircuit.mk ih1 S Pre Post (ids1 ++ ids2) (mps1 ++ mps2) (N1 + N2) D).insertion H j prev
          = .ok root ↔
        (MbuCircuit.mk ih2 S Pre M ids1 mps1 N1 D).insertion H j prev = .ok root) := by
    intro M j prev root hj
    apply insertion_congr
    · rfl
    · exact List.getElem?_append_left (by omega)
    · exact List.getElem?_append_left (by omega)
  have hsecond : ∀ (M j prev root : Nat),
      ((MbuCircuit.mk ih1 S Pre Post (ids1 ++ ids2) (mps1 ++ mps2) (N1 + N2) D).insertion H
          (N1 + j) prev = .ok root ↔
        (MbuCircuit.mk ih3 (S + N1) M Post ids2 mps2 N2 D).insertion H j prev = .ok root) := by
    intro M j prev root
    apply insertion_congr
    · simp only [MbuCircuit.currentPath, add_shift]
    · rw [List.getElem?_append_right (by omega)]
      congr 1
      omega
    · rw [List.getElem?_append_right (by omega)]
      congr 1
      omega
  rw [merkle_ok_iff_chain H _ (show 1 ≤ N1 + N2 by omega)]
  constructor
  · rintro ⟨r, h0, hs, hp⟩
    refine ⟨r N1, ?_, ?_⟩
    · rw [merkle_ok_iff_chain H _ h1]
      exact ⟨r, h0, fun j hj => (hfirst (r N1) j _ _ hj).1 (hs j (Nat.lt_add_right N2 hj)), rfl⟩
    · rw [merkle_ok_iff_chain H _ h2]
      refine ⟨fun j => r (N1 + j), rfl, ?_, hp⟩
      intro j hj
      exact (hsecond (r N1) j _ _).1 (hs (N1 + j) (Nat.add_lt_add_left hj N1))
  · rintro ⟨M, hA, hB⟩
    rw [merkle_ok_iff_chain H _ h1] at hA
    rw [merkle_ok_iff_chain H _ h2] at hB
    obtain ⟨r1, h10, h1s, h1p⟩ := hA
    obtain ⟨r2, h20, h2s, h2p⟩ := hB
    simp only at h10 h1s h1p h20 h2s h2p
    refine ⟨fun j => if j ≤ N1 then r1 j else r2 (j - N1), ?_, ?_, ?_⟩
    · simpa using h10
    · intro j hj
      simp only at hj
      by_cases hlt : j < N1
      · have e1 : (if j ≤ N1 then r1 j else r2 (j - N1)) = r1 j := by
          rw [if_pos (Nat.le_of_lt hlt)]
        have e2 : (if j + 1 ≤ N1 then r1 (j + 1) else r2 (j + 1 - N1)) = r1 (j + 1) := by
          rw [if_pos (show j + 1 ≤ N1 from hlt)]
        simp only [e1, e2]
        exact (hfirst M j _ _ hlt).2 (h1s j hlt)
      · obtain ⟨k, rfl⟩ : ∃ k, j = N1 + k := ⟨j - N1, by omega⟩
        have hk : k < N2 := by omega
        have e1 : (if N1 + k ≤ N1 then r1 (N1 + k) else r2 (N1 + k - N1)) = r2 k := by
          by_cases hk0 : k = 0
          · subst hk0
            simp [h1p, h20]
          · rw [if_neg (by omega)]
            congr 1
            omega
        have e2 : (if N1 + k + 1 ≤ N1 then r1 (N1 + k + 1) else r2 (N1 + k + 1 - N1))
            = r2 (k + 1) := by
          rw [if_neg (by omega)]
          congr 1
          omega
        simp only [e1, e2]
        exact (hsecond M k _ _).2 (h2s k hk)
    · have : ¬ (N1 + N2 ≤ N1) := by omega
      simp only [this, if_false]
      rw [show N1 + N2 - N1 = N2 by omega]
      exact h2p

theorem currentPath_of_lt (c : MbuCircuit) (i : Nat) (hfield : c.StartIndex + i < fieldModulus)
    (hfit : c.StartIndex + i < 2 ^ c.Depth) :
    c.currentPath i
      = .ok ((List.range c.Depth).map fun k => (c.StartIndex + i) / 2 ^ k % 2) := by
  unfold MbuCircuit.currentPath api.ToBinary api.Add
  rw [Nat.mod_eq_of_lt hfield, if_pos hfit]

theorem currentPath_of_ge (c : MbuCircuit) (i : Nat) (hfield : c.StartIndex + i < fieldModulus)
    (hbig : 2 ^ c.Depth ≤ c.StartIndex + i) :
    c.currentPath i = .error .binaryDecomposition := by
  unfold MbuCircuit.currentPath api.ToBinary api.Add
  rw [Nat.mod_eq_of_lt hfield, if_neg (Nat.not_lt.mpr hbig)]

theorem loop_sum_ne (H : Nat → Nat → Nat) (hinj : CollisionFree H) (proof : List Nat) :
    ∀ (bits : List Nat) (sum sum2 r : Nat), VerifyProof.loop H sum proof bits = .ok r →
      sum2 ≠ sum → ∃ r2, VerifyProof.loop H sum2 proof bits = .ok r2 ∧ r2 ≠ r := by
  induction proof with
  | nil =>
    intro bits sum sum2 r h hne
    simp only [VerifyProof.loop] at h
    refine ⟨sum2, by simp [VerifyProof.loop], ?_⟩
    rw [← Except.ok.inj h]
    exact hne
  | cons s rest ih =>
    intro bits sum sum2 r h hne
    cases bits with
    | nil => simp [VerifyProof.loop] at h
    | cons b bs =>
      simp only [VerifyProof.loop, bind_eq_ok] at h
      obtain ⟨u, hu, hrest⟩ := h
      have hb : b = 0 ∨ b = 1 := by
        by_contra hnb
        simp [api.AssertIsBoolean, hnb] at hu
      have hne2 : nodeSum H (api.Select b s sum2) (api.Select b sum2 s)
          ≠ nodeSum H (api.Select b s sum) (api.Select b sum s) := by
        intro heq
        rcases hb with h0 | h1
        · subst h0
          simp only [nodeSum, api.Select] at heq
          exact hne (hinj _ _ _ _ heq).1
        · subst h1
          simp only [nodeSum, api.Select] at heq
          exact hne (hinj _ _ _ _ heq).2
      obtain ⟨r2, hr2, hr2ne⟩ := ih bs _ _ r hrest hne2
      refine ⟨r2, ?_, hr2ne⟩
      simp only [VerifyProof.loop, bind_eq_ok]
      exact ⟨u, hu, hr2⟩

theorem loop_set_ne (H : Nat → Nat → Nat) (hinj : CollisionFree H) (proof : List Nat) :
    ∀ (bits : List Nat) (sum r k v : Nat), VerifyProof.loop H sum proof bits = .ok r →
      k < proof.length → proof[k]? ≠ some v →
      ∃ r2, VerifyProof.loop H sum (proof.set k v) bits = .ok r2 ∧ r2 ≠ r := by
  induction proof with
  | nil =>
    intro bits sum r k v _ hk
    simp at hk
  | cons s rest ih =>
    intro bits sum r k v h hk hv
    cases bits with
    | nil => simp [VerifyProof.loop] at h
    | cons b bs =>
      simp only [VerifyProof.loop, bind_eq_ok] at h
      obtain ⟨u, hu, hrest⟩ := h
      have hb : b = 0 ∨ b = 1 := by
        by_contra hnb
        simp [api.AssertIsBoolean, hnb] at hu
      cases k with
      | zero =>
        have hsv : v ≠ s := by
          intro e
          apply hv
          simp [e]
        have hne2 : nodeSum H (api.Select b v sum) (api.Select b sum v)
            ≠ nodeSum H (api.Select b s sum) (api.Select b sum s) := by
          intro heq
          rcases hb with h0 | h1
          · subst h0
            simp only [nodeSum, api.Select] at heq
            exact hsv (hinj _ _ _ _ heq).2
          · subst h1
            simp only [nodeSum, api.Select] at heq
            exact hsv (hinj _ _ _ _ heq).1
        obtain ⟨r2, hr2, hr2ne⟩ := loop_sum_ne H hinj rest bs _ _ r hrest hne2
        refine ⟨r2, ?_, hr2ne⟩
        simp only [List.set_cons_zero, VerifyProof.loop, bind_eq_ok]
        exact ⟨u, hu, hr2⟩
      | succ k =>
        have hk2 : k < rest.length := by simpa using hk
        have hv2 : rest[k]? ≠ some v := by simpa using hv
        obtain ⟨r2, hr2, hr2ne⟩ := ih bs _ r k v hrest hk2 hv2
        refine ⟨r2, ?_, hr2ne⟩
        simp only [List.set_cons_succ, VerifyProof.loop, bind_eq_ok]
        exact ⟨u, hu, hr2⟩

theorem insertion_withProof_of_ne (H : Nat → Nat → Nat) (c : MbuCircuit) (i j prev : Nat)
    (proof : List Nat) (hne : j ≠ i) :
    (c.withProof i proof).insertion H j prev = c.insertion H j prev := by
  have hmp : (c.withProof i proof).MerkleProofs[j]? = c.MerkleProofs[j]? := by
    simp only [MbuCircuit.withProof]
    exact List.getElem?_set_ne (Ne.symm hne)
  unfold MbuCircuit.insertion index
  rw [hmp]
  rfl

theorem insertion_withProof_self (H : Nat → Nat → Nat) (hinj : CollisionFree H)
    (c : MbuCircuit) (i k v prev root : Nat) (proof : List Nat)
    (hok : c.insertion H i prev = .ok root) (hp : c.MerkleProofs[i]? = some proof)
    (hk : k < proof.length) (hv : proof[k]? ≠ some v) :
    (c.withProof i (proof.set k v)).insertion H i prev = .error (.emptySlotMismatch i) := by
  rw [insertion_eq_ok] at hok
  obtain ⟨bits, proof2, idComm, hb, hp2, _, _, hv0⟩ := hok
  have hpp : proof2 = proof := by rw [hp] at hp2; exact (Option.some.inj hp2).symm
  subst hpp
  have hlt : i < c.MerkleProofs.length := by
    by_contra hge
    rw [List.getElem?_eq_none (Nat.le_of_not_lt hge)] at hp
    cases hp
  have hmp : (c.withProof i (proof2.set k v)).MerkleProofs[i]? = some (proof2.set k v) := by
    simp only [MbuCircuit.withProof]
    simp [List.getElem?_set, hlt]
  have hcp : (c.withProof i (proof2.set k v)).currentPath i = .ok bits := hb
  simp only [VerifyProof] at hv0
  obtain ⟨r2, hr2, hr2ne⟩ := loop_set_ne H hinj proof2 bits emptyLeaf prev k v hv0 hk hv
  have hvp : VerifyProof H (emptyLeaf :: proof2.set k v) bits = .ok r2 := hr2
  unfold MbuCircuit.insertion index
  rw [hcp, hmp]
  simp only [bind, Except.bind, hvp, api.AssertIsEqual, if_neg hr2ne]

theorem insertions_withProof (H : Nat → Nat → Nat) (hinj : CollisionFree H)
    (c : MbuCircuit) (i k v : Nat) (proof : List Nat)
    (hp : c.MerkleProofs[i]? = some proof) (hk : k < proof.length) (hv : proof[k]? ≠ some v) :
    ∀ (n i0 prev : Nat) (root0 res : Option Nat), i0 ≤ i → i < i0 + n →
      c.insertions H n i0 prev root0 = .ok res →
      (c.withProof i (proof.set k v)).insertions H n i0 prev root0
        = .error (.emptySlotMismatch i) := by
  intro n
  induction n with
  | zero =>
    intro i0 prev root0 res h1 h2
    omega
  | succ n ih =>
    intro i0 prev root0 res h1 h2 hok
    simp only [MbuCircuit.insertions, bind_eq_ok] at hok
    obtain ⟨root1, hstep, hrest⟩ := hok
    by_cases hi : i0 = i
    · subst hi
      have := insertion_withProof_self H hinj c i0 k v prev root1 proof hstep hp hk hv
      simp only [MbuCircuit.insertions, this]
      rfl
    · have hsame := insertion_withProof_of_ne H c i i0 prev (proof.set k v) hi
      simp only [MbuCircuit.insertions, hsame, hstep]
      exact ih (i0 + 1) root1 (some root1) res (by omega) (by omega) hrest

theorem validate_loop_none (treeDepth : Nat) (l : List (List Int)) :
    ∀ i, Parameters.ValidateShape.loop treeDepth i l = none ↔
      ∀ proof ∈ l, proof.length = treeDepth := by
  induction l with
  | nil => intro i; simp [Parameters.ValidateShape.loop]
  | cons proof rest ih =>
    intro i
    by_cases h : proof.length = treeDepth
    · simp [Parameters.ValidateShape.loop, h, ih (i + 1)]
    · simp [Parameters.ValidateShape.loop, h]

theorem validate_loop_congr (treeDepth : Nat) (l1 : List (List Int)) :
    ∀ (l2 : List (List Int)) (i : Nat), l1.map List.length = l2.map List.length →
      Parameters.ValidateShape.loop treeDepth i l1
        = Parameters.ValidateShape.loop treeDepth i l2 := by
  induction l1 with
  | nil =>
    intro l2 i h
    cases l2 with
    | nil => rfl
    | cons _ _ => simp at h
  | cons a rest ih =>
    intro l2 i h
    cases l2 with
    | nil => simp at h
    | cons b rest2 =>
      simp only [List.map_cons, List.cons.injEq] at h
      simp only [Parameters.ValidateShape.loop, h.1, ih rest2 (i + 1) h.2]

theorem foldl_set_length {β : Type} (f : Nat → β) (l : List Nat) :
    ∀ P : List β, (l.foldl (fun P i => P.set i (f i)) P).length = P.length := by
  induction l with
  | nil => intro P; rfl
  | cons a rest ih => intro P; simp [ih]

theorem foldl_set_getElem_of_not_mem {β : Type} (f : Nat → β) (l : List Nat) (j : Nat)
    (hj : j ∉ l) :
    ∀ P : List β, (l.foldl (fun P i => P.set i (f i)) P)[j]? = P[j]? := by
  induction l with
  | nil => intro P; rfl
  | cons a rest ih =>
    intro P
    have hne : a ≠ j := fun e => hj (by simp [e])
    have hrest : j ∉ rest := fun e => hj (by simp [e])
    simp only [List.foldl_cons]
    rw [ih hrest, List.getElem?_set_ne hne]

theorem alloc_length (inputBits : List Nat) :
    (Keccak.alloc inputBits).length
      = inputBits.length + (blockSize - inputBits.length % blockSize) := by
  unfold Keccak.alloc
  rw [foldl_set_length (fun i => inputBits[i]?)]
  simp

theorem alloc_tail (inputBits : List Nat) (j : Nat) (h1 : inputBits.length ≤ j)
    (h2 : j < inputBits.length + (blockSize - inputBits.length % blockSize)) :
    (Keccak.alloc inputBits)[j]? = some none := by
  unfold Keccak.alloc
  rw [foldl_set_getElem_of_not_mem (fun i => inputBits[i]?) _ j (by simp; omega)]
  simp [List.getElem?_replicate, h2]

theorem padding_aligned (inputBits : List Nat) (h : inputBits.length % blockSize = 0) :
    Keccak.padding inputBits = .ok (Keccak.alloc inputBits) := by
  unfold Keccak.padding
  simp [h]

/-! ## Facts on the Keccak gadget -/

theorem finRange_five : List.finRange stateSize = [0, 1, 2, 3, 4] := rfl

theorem rhoPi_loop_low (R : Fin stateSize → Fin stateSize → Nat) (A : State)
    (a y : Fin stateSize) : round.rhoPi R A a (col25 y) = some (rhoPi R A a y) := by
  fin_cases a <;> fin_cases y <;> rfl

theorem rhoPi_loop_high (R : Fin stateSize → Fin stateSize → Nat) (A : State)
    (a : Fin stateSize) (b : Fin (5 * stateSize)) (hb : ¬ b.val < stateSize) :
    round.rhoPi R A a b = none := by
  have hne : ∀ y : Fin stateSize, b ≠ col25 y := by
    intro y h
    apply hb
    rw [h]
    exact y.isLt
  unfold round.rhoPi forXY
  rw [finRange_five]
  simp only [List.foldl_cons, List.foldl_nil, Grid.set, hne, and_false, if_false]

theorem rhoPi_loop_eq (R : Fin stateSize → Fin stateSize → Nat) (A : State) :
    round.rhoPi R A
      = fun a b => if h : b.val < stateSize then some (rhoPi R A a ⟨b.val, h⟩) else none := by
  funext a b
  by_cases hb : b.val < stateSize
  · rw [dif_pos hb]
    exact rhoPi_loop_low R A a ⟨b.val, hb⟩
  · rw [dif_neg hb]
    exact rhoPi_loop_high R A a b hb

theorem theta_loop_eq (api : API) (D : Fin stateSize → Lane) (A : State) :
    round.theta api D A = fun x y => xor api (A x y) (D x) := by
  funext x y
  fin_cases x <;> fin_cases y <;> rfl

theorem round_D_eq (api : API) (A : State) :
    round.D api (round.C api A) = thetaD api A := by
  funext x
  fin_cases x <;> rfl

theorem chi_loop_eq (api : API) (B : State) (A : State) :
    round.chi api (fun a b => if h : b.val < stateSize then some (B a ⟨b.val, h⟩) else none) A
      = .ok (chi api B) := by
  have h : round.chi api
      (fun a b => if h : b.val < stateSize then some (B a ⟨b.val, h⟩) else none) A
      = .ok (forXY (fun A x y => A.set x y (chi api B x y)) A) := rfl
  rw [h]
  congr 1
  funext x y
  fin_cases x <;> fin_cases y <;> rfl

theorem iota_eq (api : API) (A : State) (RC : Lane) :
    A.set 0 0 (xor api (A 0 0) RC) = iota api A RC := by
  funext x y
  simp only [State.set, iota]

theorem round_eq_roundRef (api : API) (R : Fin stateSize → Fin stateSize → Nat) (A : State)
    (RC : Lane) : round api R A RC = .ok (roundRef api R A RC) := by
  unfold round
  simp only [round_D_eq, theta_loop_eq, rhoPi_loop_eq, chi_loop_eq, bind, Except.bind, pure,
    Except.pure, iota_eq]
  rfl

theorem foldlM_ok {σ β : Type} (f : σ → β → Except Failure σ) (g : σ → β → σ)
    (h : ∀ s b, f s b = .ok (g s b)) (l : List β) :
    ∀ s, l.foldlM f s = .ok (l.foldl g s) := by
  induction l with
  | nil => intro s; rfl
  | cons b rest ih =>
    intro s
    simp only [List.foldlM_cons, List.foldl_cons, h, bind, Except.bind]
    exact ih _

theorem keccakf_eq_keccakfRef (api : API) (R : Fin stateSize → Fin stateSize → Nat)
    (RC : Fin 24 → Lane) (A : State) :
    keccakf api R RC A = .ok (keccakfRef api R RC A) :=
  foldlM_ok _ _ (fun s i => round_eq_roundRef api R s (RC i)) _ A

theorem foldl_set_getElem_of_mem {β : Type} (f : Nat → β) (l : List Nat) (j : Nat) (hj : j ∈ l) :
    ∀ P : List β, j < P.length → (l.foldl (fun P i => P.set i (f i)) P)[j]? = some (f j) := by
  induction l with
  | nil => simp at hj
  | cons a rest ih =>
    intro P hlt
    simp only [List.foldl_cons]
    by_cases hr : j ∈ rest
    · exact ih hr _ (by simpa using hlt)
    · have hja : j = a := by
        rcases List.mem_cons.1 hj with h | h
        · exact h
        · exact absurd h hr
      subst hja
      rw [foldl_set_getElem_of_not_mem f rest j hr]
      simp [hlt]

theorem alloc_head (inputBits : List Nat) (j : Nat) (h : j < inputBits.length) :
    (Keccak.alloc inputBits)[j]? = some inputBits[j]? := by
  unfold Keccak.alloc
  rw [foldl_set_getElem_of_mem (fun i => inputBits[i]?) _ j (by simpa using h)]
  simp
  omega

theorem padding_overflow (inputBits : List Nat) (h : 1081 ≤ inputBits.length % blockSize) :
    Keccak.padding inputBits = .error .indexOutOfRange := by
  have hlt : inputBits.length % blockSize < blockSize := Nat.mod_lt _ (by decide)
  unfold Keccak.padding
  simp only [foldl_set_length, alloc_length]
  simp only [blockSize] at h hlt ⊢
  rw [if_pos (by omega), if_neg (by omega)]

theorem padding_ok (inputBits : List Nat) (h0 : inputBits.length % blockSize ≠ 0)
    (h1 : inputBits.length % blockSize ≤ 1080) :
    ∃ P, Keccak.padding inputBits = .ok P ∧
      P.length = inputBits.length + (blockSize - inputBits.length % blockSize) ∧
      ∀ j, j < P.length →
        P[j]? = some (if j < inputBits.length then inputBits[j]?
                      else if j = inputBits.length + 7 then some 1 else some 0) := by
  have hlt : inputBits.length % blockSize < blockSize := Nat.mod_lt _ (by decide)
  unfold Keccak.padding
  simp only [foldl_set_length, alloc_length]
  simp only [blockSize] at h0 h1 hlt ⊢
  rw [if_pos h0, if_pos (by omega)]
  refine ⟨_, rfl, ?_, ?_⟩
  · simp [foldl_set_length, alloc_length, blockSize]
  · intro j hj
    simp only [List.length_set, foldl_set_length, alloc_length, blockSize] at hj
    by_cases hj7 : j = inputBits.length + 7
    · subst hj7
      rw [if_neg (by omega), if_pos rfl]
      exact List.getElem?_set_self
        (by simp only [foldl_set_length, alloc_length, blockSize]; omega)
    · rw [List.getElem?_set_ne (Ne.symm hj7)]
      by_cases hjL : j < inputBits.length
      · rw [if_pos hjL, foldl_set_getElem_of_not_mem (fun _ => some 0) _ j
          (by simp [List.mem_range']; omega)]
        exact alloc_head inputBits j hjL
      · rw [if_neg hjL, if_neg hj7]
        exact foldl_set_getElem_of_mem (fun _ => some 0) _ j
          (by rw [List.mem_range'_1]; omega) _
          (by rw [alloc_length]; simpa [blockSize] using hj)

theorem mask_eq (n : Nat) : Keccak.mask n = List.replicate n 0 := by
  unfold Keccak.mask
  apply List.ext_getElem?
  intro j
  by_cases h : n - 8 = j
  · subst h
    by_cases hn : n - 8 < n
    · simp [List.getElem?_replicate, hn]
    · simp [List.getElem?_replicate, hn]
  · rw [List.getElem?_set_ne h]

theorem xorPass_ok (api : API) (P : List (Option Nat)) :
    ∀ tmp : List Nat, (∀ p ∈ P, p ≠ none) → P.length ≤ tmp.length →
      ∃ out, Keccak.xorPass api P tmp = .ok out ∧ out.length = P.length ∧
        ∀ (j p t : Nat), P[j]? = some (some p) → tmp[j]? = some t →
          out[j]? = some (api.Xor p t) := by
  induction P with
  | nil =>
    intro tmp _ _
    exact ⟨[], by simp [Keccak.xorPass], rfl, by simp⟩
  | cons p rest ih =>
    intro tmp hall hlen
    cases tmp with
    | nil => simp at hlen
    | cons t tmp =>
      cases p with
      | none => exact absurd rfl (hall none (by simp))
      | some v =>
        obtain ⟨out, hout, hl, hpt⟩ := ih tmp (fun q hq => hall q (by simp [hq]))
          (by simpa using hlen)
        refine ⟨api.Xor v t :: out, ?_, by simp [hl], ?_⟩
        · simp only [Keccak.xorPass, hout, bind, Except.bind, pure, Except.pure]
        · intro j p2 t2 hp ht
          cases j with
          | zero =>
            simp only [List.getElem?_cons_zero, Option.some.injEq] at hp ht ⊢
            rw [hp, ht]
          | succ j =>
            simp only [List.getElem?_cons_succ] at hp ht ⊢
            exact hpt j p2 t2 hp ht

theorem xorPass_nil (api : API) (P : List (Option Nat)) :
    ∀ tmp : List Nat, none ∈ P → P.length ≤ tmp.length →
      Keccak.xorPass api P tmp = .error .nilVariable := by
  induction P with
  | nil => intro tmp h; simp at h
  | cons p rest ih =>
    intro tmp hmem hlen
    cases tmp with
    | nil => simp at hlen
    | cons t tmp =>
      cases p with
      | none => simp [Keccak.xorPass]
      | some v =>
        have hr : none ∈ rest := by simpa using hmem
        simp only [Keccak.xorPass, ih tmp hr (by simpa using hlen), bind, Except.bind]

theorem foldlM_ok_mem {σ β : Type} (f : σ → β → Except Failure σ) (g : σ → β → σ) (l : List β)
    (h : ∀ s, ∀ b ∈ l, f s b = .ok (g s b)) :
    ∀ s, l.foldlM f s = .ok (l.foldl g s) := by
  induction l with
  | nil => intro s; rfl
  | cons b rest ih =>
    intro s
    simp only [List.foldlM_cons, List.foldl_cons, h s b (by simp), bind, Except.bind]
    exact ih (fun s c hc => h s c (by simp [hc])) _

theorem block_ok (P : List Nat) (i k : Nat) (hk : k < 17) (h : i + 1088 ≤ P.length) :
    Keccak.block P i k = .ok (fun z => P.getD (i + k * laneSize + z.val) 0) := by
  unfold Keccak.block
  rw [if_pos (by simp only [laneSize]; omega)]

theorem absorbBlock_eq (api : API) (P : List Nat) (i : Nat) (S : State)
    (h : i + 1088 ≤ P.length) :
    Keccak.absorbBlock api P i S = .ok (blockXor api P i S) := by
  have hbody : (fun (s : Except Failure State) (x y : Fin stateSize) => do
        let S ← s
        if x.val + 5 * y.val < blockSize / laneSize then
          let Pi ← Keccak.block P i (x.val + 5 * y.val)
          pure (S.set x y (xor api (S x y) Pi))
        else pure S)
      = (fun (s : Except Failure State) (x y : Fin stateSize) => do
        let S ← s
        pure (if x.val + 5 * y.val < blockSize / laneSize then
          S.set x y (xor api (S x y)
            (fun z => P.getD (i + (x.val + 5 * y.val) * laneSize + z.val) 0))
        else S)) := by
    funext s x y
    cases s with
    | error e => rfl
    | ok S =>
      by_cases hc : x.val + 5 * y.val < blockSize / laneSize
      · have hk : x.val + 5 * y.val < 17 := hc
        simp only [bind, Except.bind, if_pos hc, block_ok P i _ hk h, pure, Except.pure]
      · simp only [bind, Except.bind, if_neg hc, pure, Except.pure]
  unfold Keccak.absorbBlock
  rw [hbody]
  have hpure : forXY (fun (s : Except Failure State) (x y : Fin stateSize) => do
        let S ← s
        pure (if x.val + 5 * y.val < blockSize / laneSize then
          S.set x y (xor api (S x y)
            (fun z => P.getD (i + (x.val + 5 * y.val) * laneSize + z.val) 0))
        else S)) (pure S)
      = .ok (forXY (fun (S : State) (x y : Fin stateSize) =>
          if x.val + 5 * y.val < blockSize / laneSize then
            S.set x y (xor api (S x y)
              (fun z => P.getD (i + (x.val + 5 * y.val) * laneSize + z.val) 0))
          else S) S) := rfl
  rw [hpure]
  congr 1
  funext x y z
  fin_cases x <;> fin_cases y <;> rfl

theorem absorb_eq_absorbRef (api : API) (R : Fin stateSize → Fin stateSize → Nat)
    (RC : Fin 24 → Lane) (P : List Nat) (h : P.length % 1088 = 0) :
    Keccak.absorb api R RC P = .ok (absorbRef api R RC P) := by
  unfold Keccak.absorb absorbRef
  have hcount : (P.length + blockSize - 1) / blockSize = P.length / 1088 := by
    simp only [blockSize]
    omega
  rw [hcount]
  apply foldlM_ok_mem
  intro S k hk
  have hk2 : k < P.length / 1088 := List.mem_range.1 hk
  have hb : k * blockSize + 1088 ≤ P.length := by
    simp only [blockSize]
    omega
  simp only [absorbBlock_eq api P _ S hb, bind, Except.bind, keccakf_eq_keccakfRef]

theorem squeeze_done (api : API) (R : Fin stateSize → Fin stateSize → Nat) (RC : Fin 24 → Lane)
    (fuel : Nat) (Z : Fin outSize → Option Nat) (i : Nat) (S : State) (h : ¬ i < outSize) :
    Keccak.squeeze api R RC fuel (Z, i) S = .ok Z := by
  cases fuel with
  | zero => simp only [Keccak.squeeze, if_neg h]
  | succ n => simp only [Keccak.squeeze, if_neg h]

theorem squeezePass_zero (S : State) (Z : Fin outSize → Option Nat) :
    Keccak.squeezePass S (Z, 0)
      = (Keccak.copy (Keccak.copy (Keccak.copy (Keccak.copy Z 0 (S 0 0)) 64 (S 0 1)) 128 (S 0 2))
          192 (S 0 3), 256) := by
  unfold Keccak.squeezePass forXY
  rw [finRange_five]
  simp +decide only [List.foldl_cons, List.foldl_nil, if_true, if_false, and_self, and_true,
    and_false, Nat.zero_add, Nat.reduceAdd, Nat.reduceLT, outSize, laneSize, blockSize]

theorem copies_eq_columnLanes (S : State) (Z : Fin outSize → Option Nat) :
    Keccak.copy (Keccak.copy (Keccak.copy (Keccak.copy Z 0 (S 0 0)) 64 (S 0 1)) 128 (S 0 2))
        192 (S 0 3) = columnLanes S := by
  funext j
  have hj := j.isLt
  simp only [outSize] at hj
  unfold Keccak.copy columnLanes
  simp only [laneSize]
  by_cases h3 : 192 ≤ j.val
  · have e : idx5 (j.val / 64) = 3 := by
      apply Fin.ext
      show j.val / 64 % 5 = 3
      omega
    rw [dif_pos ⟨h3, by omega⟩, e]
    congr 2
    apply Fin.ext
    show j.val - 192 = j.val % 64
    omega
  · rw [dif_neg (by omega)]
    by_cases h2 : 128 ≤ j.val
    · have e : idx5 (j.val / 64) = 2 := by
        apply Fin.ext
        show j.val / 64 % 5 = 2
        omega
      rw [dif_pos ⟨h2, by omega⟩, e]
      congr 2
      apply Fin.ext
      show j.val - 128 = j.val % 64
      omega
    · rw [dif_neg (by omega)]
      by_cases h1 : 64 ≤ j.val
      · have e : idx5 (j.val / 64) = 1 := by
          apply Fin.ext
          show j.val / 64 % 5 = 1
          omega
        rw [dif_pos ⟨h1, by omega⟩, e]
        congr 2
        apply Fin.ext
        show j.val - 64 = j.val % 64
        omega
      · have e : idx5 (j.val / 64) = 0 := by
          apply Fin.ext
          show j.val / 64 % 5 = 0
          omega
        rw [dif_neg (by omega), dif_pos ⟨Nat.zero_le _, by omega⟩, e]
        congr 2
        apply Fin.ext
        show j.val - 0 = j.val % 64
        omega

theorem squeeze_eq_columnLanes (api : API) (R : Fin stateSize → Fin stateSize → Nat)
    (RC : Fin 24 → Lane) (fuel : Nat) (Z : Fin outSize → Option Nat) (S : State) :
    Keccak.squeeze api R RC (fuel + 1) (Z, 0) S = .ok (columnLanes S) := by
  simp only [Keccak.squeeze]
  rw [if_pos (by decide)]
  simp only [keccakf_eq_keccakfRef, bind, Except.bind, squeezePass_zero]
  rw [squeeze_done _ _ _ _ _ _ _ (by decide), copies_eq_columnLanes]

theorem gnarkApi_xor_zero (a b : Nat) :
    gnarkApi.Xor (gnarkApi.Xor a b) 0 = gnarkApi.Xor a b := by
  simp [gnarkApi, Nat.mod_mod]

theorem loop_notBoolean (H : Nat → Nat → Nat) (siblings : List Nat) :
    ∀ (helper : List Nat) (sum k : Nat), siblings.length ≤ helper.length →
      k < siblings.length → helper[k]? ≠ some 0 → helper[k]? ≠ some 1 →
      VerifyProof.loop H sum siblings helper = .error .notBoolean := by
  induction siblings with
  | nil => intro helper sum k _ hk; simp at hk
  | cons s rest ih =>
    intro helper sum k hlen hk h0 h1
    cases helper with
    | nil => simp at hlen
    | cons b bs =>
      by_cases hb : b = 0 ∨ b = 1
      · cases k with
        | zero =>
          rcases hb with rfl | rfl
          · exact absurd (by simp) h0
          · exact absurd (by simp) h1
        | succ k =>
          have := ih bs (nodeSum H (api.Select b s sum) (api.Select b sum s)) k
            (by simpa using hlen) (by simpa using hk) (by simpa using h0) (by simpa using h1)
          simp only [VerifyProof.loop, api.AssertIsBoolean, if_pos hb, bind, Except.bind]
          exact this
      · simp only [VerifyProof.loop, api.AssertIsBoolean, if_neg hb, bind, Except.bind]

theorem loop_short (H : Nat → Nat → Nat) (siblings : List Nat) :
    ∀ (helper : List Nat) (sum : Nat), helper.length < siblings.length →
      (VerifyProof.loop H sum siblings helper = .error .indexOutOfRange ∧
          ∀ b ∈ helper, b = 0 ∨ b = 1)
        ∨ (VerifyProof.loop H sum siblings helper = .error .notBoolean ∧
          ∃ b ∈ helper, ¬ (b = 0 ∨ b = 1)) := by
  induction siblings with
  | nil => intro helper sum h; simp at h
  | cons s rest ih =>
    intro helper sum hlen
    cases helper with
    | nil => exact Or.inl ⟨rfl, by simp⟩
    | cons b bs =>
      by_cases hb : b = 0 ∨ b = 1
      · rcases ih bs (nodeSum H (api.Select b s sum) (api.Select b sum s))
          (by simpa using hlen) with ⟨h, hall⟩ | ⟨h, c, hc, hnb⟩
        · left
          refine ⟨?_, ?_⟩
          · simp only [VerifyProof.loop, api.AssertIsBoolean, if_pos hb, bind, Except.bind]
            exact h
          · intro x hx
            rcases List.mem_cons.1 hx with rfl | hx
            · exact hb
            · exact hall x hx
        · right
          refine ⟨?_, c, by simp [hc], hnb⟩
          simp only [VerifyProof.loop, api.AssertIsBoolean, if_pos hb, bind, Except.bind]
          exact h
      · right
        refine ⟨?_, b, by simp, hb⟩
        simp only [VerifyProof.loop, api.AssertIsBoolean, if_neg hb, bind, Except.bind]

theorem loop_take (H : Nat → Nat → Nat) (siblings : List Nat) :
    ∀ (helper : List Nat) (sum : Nat),
      VerifyProof.loop H sum siblings helper
        = VerifyProof.loop H sum siblings (helper.take siblings.length) := by
  induction siblings with
  | nil => intro helper sum; simp [VerifyProof.loop]
  | cons s rest ih =>
    intro helper sum
    cases helper with
    | nil => rfl
    | cons b bs =>
      simp only [List.length_cons, List.take_succ_cons, VerifyProof.loop]
      by_cases hb : b = 0 ∨ b = 1
      · simp only [api.AssertIsBoolean, if_pos hb, bind, Except.bind]
        exact ih bs _
      · simp only [api.AssertIsBoolean, if_neg hb, bind, Except.bind]

theorem toBinary_length (v n : Nat) (bits : List Nat) (h : api.ToBinary v n = .ok bits) :
    bits.length = n := by
  unfold api.ToBinary at h
  by_cases hv : v < 2 ^ n
  · rw [if_pos hv] at h
    rw [← Except.ok.inj h]
    simp
  · rw [if_neg hv] at h
    cases h

theorem mapM_flatten_length (f : Nat → Except Failure (List Nat)) (n : Nat)
    (hf : ∀ i bits, f i = .ok bits → bits.length = n) (l : List Nat) :
    ∀ out, l.mapM f = .ok out → out.flatten.length = n * l.length := by
  induction l with
  | nil =>
    intro out h
    simp only [List.mapM_nil, pure, Except.pure] at h
    rw [← Except.ok.inj h]
    simp
  | cons a rest ih =>
    intro out h
    simp only [List.mapM_cons, bind_eq_ok, pure, Except.pure] at h
    obtain ⟨b, hb, bs, hbs, hout⟩ := h
    rw [← Except.ok.inj hout]
    simp only [List.flatten_cons, List.length_append, hf a b hb, ih bs hbs, List.length_cons]
    rw [Nat.mul_succ, Nat.add_comm]

theorem hashInput_length (c : MbuCircuit) (bits : List Nat) (h : c.hashInput = .ok bits) :
    bits.length = (c.BatchSize + 2) * 256 + 32 := by
  unfold MbuCircuit.hashInput at h
  simp only [bind_eq_ok, pure, Except.pure] at h
  obtain ⟨s, hs, pre, hpre, post, hpost, ids, hids, hout⟩ := h
  have hidl := mapM_flatten_length _ 256 (fun i b hb => by
    simp only [bind_eq_ok] at hb
    obtain ⟨v, _, hv⟩ := hb
    exact toBinary_length _ _ _ hv) _ ids hids
  rw [← Except.ok.inj hout]
  simp only [List.length_append, toBinary_length _ _ _ hs, toBinary_length _ _ _ hpre,
    toBinary_length _ _ _ hpost, hidl, List.length_range]
  omega

theorem padding_ok_assigned (inputBits : List Nat) (h0 : inputBits.length % blockSize ≠ 0)
    (h1 : inputBits.length % blockSize ≤ 1080) :
    ∃ P, Keccak.padding inputBits = .ok P ∧
      P.length = inputBits.length + (blockSize - inputBits.length % blockSize) ∧
      ∀ p ∈ P, p ≠ none := by
  obtain ⟨P, hP, hlen, hget⟩ := padding_ok inputBits h0 h1
  refine ⟨P, hP, hlen, ?_⟩
  intro p hp hnone
  subst hnone
  obtain ⟨j, hj, hjp⟩ := List.getElem_of_mem hp
  have h := hget j hj
  rw [List.getElem?_eq_getElem hj, hjp] at h
  by_cases hjL : j < inputBits.length
  · rw [if_pos hjL, List.getElem?_eq_getElem hjL] at h
    cases h
  · rw [if_neg hjL] at h
    by_cases hj7 : j = inputBits.length + 7
    · rw [if_pos hj7] at h; cases h
    · rw [if_neg hj7] at h; cases h

theorem Keccak_returns (api : API) (R : Fin stateSize → Fin stateSize → Nat)
    (RC : Fin 24 → Lane) (inputBits : List Nat) (h0 : inputBits.length % blockSize ≠ 0)
    (h1 : inputBits.length % blockSize ≤ 1080) :
    ∃ P stream, Keccak.padding inputBits = .ok P ∧
      Keccak.xorPass api P (Keccak.mask P.length) = .ok stream ∧
      Keccak.absorb api R RC stream = .ok (absorbRef api R RC stream) ∧
      Keccak api R RC inputBits = .ok (columnLanes (absorbRef api R RC stream)) := by
  obtain ⟨P, hP, hlen, hall⟩ := padding_ok_assigned inputBits h0 h1
  obtain ⟨stream, hs, hsl, _⟩ :=
    xorPass_ok api P (Keccak.mask P.length) hall (by rw [mask_eq]; simp)
  have hmul : stream.length % 1088 = 0 := by
    rw [hsl, hlen]
    simp only [blockSize] at h0 h1 ⊢
    omega
  have habs := absorb_eq_absorbRef api R RC stream hmul
  refine ⟨P, stream, hP, hs, habs, ?_⟩
  unfold Keccak
  simp only [hP, hs, habs, bind, Except.bind]
  exact squeeze_eq_columnLanes api R RC 255 _ _

/-! ## Claims -/

/-- C1: for a batch size of at least one, the Merkle assertions of `Define` hold
exactly when there are roots `r_0 = PreRoot`, `r_(i+1) = VerifyProof (IdComms[i] ::
MerkleProofs[i]) bits_i` with `VerifyProof (emptyLeaf :: MerkleProofs[i]) bits_i =
r_i` for every `i` below the batch size and `r_N = PostRoot`, where `bits_i` are
the direction bits of `StartIndex + i`.  For a batch of one: the empty-leaf path
gives `PreRoot` and the same path with the real leaf gives `PostRoot`. -/
theorem merkle_assertions_iff_chain (H : Nat → Nat → Nat) (c : MbuCircuit)
    (hN : 1 ≤ c.BatchSize) :
    (c.merkle H = .ok () ↔
      ∃ r : Nat → Nat, r 0 = c.PreRoot ∧
        (∀ i, i < c.BatchSize → ∃ bits proof idComm,
          c.currentPath i = .ok bits ∧ c.MerkleProofs[i]? = some proof ∧
          c.IdComms[i]? = some idComm ∧
          VerifyProof H (idComm :: proof) bits = .ok (r (i + 1)) ∧
          VerifyProof H (emptyLeaf :: proof) bits = .ok (r i)) ∧
        r c.BatchSize = c.PostRoot)
    ∧ (({ c with BatchSize := 1 } : MbuCircuit).merkle H = .ok () ↔
        ∃ bits proof idComm,
          c.currentPath 0 = .ok bits ∧ c.MerkleProofs[0]? = some proof ∧
          c.IdComms[0]? = some idComm ∧
          VerifyProof H (emptyLeaf :: proof) bits = .ok c.PreRoot ∧
          VerifyProof H (idComm :: proof) bits = .ok c.PostRoot) := by
  constructor
  · rw [merkle_ok_iff_chain H c hN]
    simp only [insertion_eq_ok]
  · rw [merkle_ok_iff_chain H _ (Nat.le_refl 1)]
    simp only [insertion_eq_ok]
    constructor
    · rintro ⟨r, h0, hs, hp⟩
      obtain ⟨bits, proof, idComm, hb, hpr, hid, hv1, hv0⟩ := hs 0 (by decide)
      refine ⟨bits, proof, idComm, hb, hpr, hid, ?_, ?_⟩
      · rw [hv0]; exact congrArg _ h0
      · rw [hv1]; exact congrArg _ hp
    · rintro ⟨bits, proof, idComm, hb, hpr, hid, hv0, hv1⟩
      refine ⟨fun j => if j = 0 then c.PreRoot else c.PostRoot, rfl, ?_, rfl⟩
      intro i hi
      have hi0 : i = 0 := by
        have : i < 1 := hi
        omega
      subst hi0
      exact ⟨bits, proof, idComm, hb, hpr, hid, hv1, hv0⟩

theorem merkle_assertions_iff_chain_witness :
    1 ≤ (MbuCircuit.mk 0 2 (Nat.pair 6 (Nat.pair 0 5)) (Nat.pair 6 (Nat.pair 7 5))
          [7] [[5, 6]] 1 2).BatchSize
      ∧ (MbuCircuit.mk 0 2 (Nat.pair 6 (Nat.pair 0 5)) (Nat.pair 6 (Nat.pair 7 5))
          [7] [[5, 6]] 1 2).merkle Nat.pair = .ok ()
      ∧ ∃ bits proof idComm,
          (MbuCircuit.mk 0 2 (Nat.pair 6 (Nat.pair 0 5)) (Nat.pair 6 (Nat.pair 7 5))
            [7] [[5, 6]] 1 2).currentPath 0 = .ok bits ∧
          [[5, 6]][0]? = some proof ∧ [7][0]? = some idComm ∧
          VerifyProof Nat.pair (emptyLeaf :: proof) bits = .ok (Nat.pair 6 (Nat.pair 0 5)) ∧
          VerifyProof Nat.pair (idComm :: proof) bits = .ok (Nat.pair 6 (Nat.pair 7 5)) :=
  ⟨by decide, by decide,
    (merkle_assertions_iff_chain Nat.pair
      (MbuCircuit.mk 0 2 (Nat.pair 6 (Nat.pair 0 5)) (Nat.pair 6 (Nat.pair 7 5))
        [7] [[5, 6]] 1 2) (by decide)).2.1 (by decide)⟩

/-- C2: for a leaf, siblings `s_0..s_(n-1)` and as many boolean direction bits,
`VerifyProof (leaf :: siblings) bits` returns the left fold `acc_0 = leaf`,
`acc_(k+1) = H acc_k s_k` when `b_k = 0` and `H s_k acc_k` when `b_k = 1`; with
no sibling the result is the leaf itself. -/
theorem VerifyProof_eq_fold (H : Nat → Nat → Nat) (leaf : Nat) (siblings bits : List Nat)
    (hlen : bits.length = siblings.length) (hbool : ∀ b ∈ bits, b = 0 ∨ b = 1) :
    VerifyProof H (leaf :: siblings) bits
        = .ok ((siblings.zip bits).foldl
            (fun acc sb => if sb.2 = 0 then H acc sb.1 else H sb.1 acc) leaf)
      ∧ VerifyProof H [leaf] [] = .ok leaf := by
  constructor
  · simpa [VerifyProof, foldRoot, combine] using loop_eq_foldRoot H siblings bits leaf hlen hbool
  · rfl

theorem VerifyProof_eq_fold_witness :
    ([0, 1].length = [5, 3].length ∧ ∀ b ∈ [0, 1], b = 0 ∨ b = 1)
      ∧ VerifyProof Nat.pair (7 :: [5, 3]) [0, 1] = .ok (Nat.pair 3 (Nat.pair 7 5))
      ∧ VerifyProof Nat.pair (7 :: [5, 3]) [0, 1]
        = .ok (([5, 3].zip [0, 1]).foldl
            (fun acc sb => if sb.2 = 0 then Nat.pair acc sb.1 else Nat.pair sb.1 acc) 7)
      ∧ VerifyProof Nat.pair [7] [] = .ok 7 :=
  ⟨by decide, by decide, VerifyProof_eq_fold Nat.pair 7 [5, 3] [0, 1] (by decide) (by decide)⟩

/-- C3: for `N1, N2 ≥ 1`, the Merkle assertions of one batch of size `N1 + N2`
at `StartIndex` over the concatenated leaves and paths, from `PreRoot` to
`PostRoot`, hold exactly when some middle root `M` makes the batch of the first
`N1` hold from `PreRoot` to `M` and the batch of the last `N2`, at
`StartIndex + N1`, hold from `M` to `PostRoot`; the combined run and the second
run then leave the same final root. -/
theorem batch_concat_iff (H : Nat → Nat → Nat) (ih S Pre Post D N1 N2 : Nat)
    (ids1 ids2 : List Nat) (mps1 mps2 : List (List Nat))
    (h1 : 1 ≤ N1) (h2 : 1 ≤ N2) (hi : ids1.length = N1) (hm : mps1.length = N1) :
    ((MbuCircuit.mk ih S Pre Post (ids1 ++ ids2) (mps1 ++ mps2) (N1 + N2) D).merkle H = .ok () ↔
      ∃ M, (MbuCircuit.mk ih S Pre M ids1 mps1 N1 D).merkle H = .ok () ∧
        (MbuCircuit.mk ih (S + N1) M Post ids2 mps2 N2 D).merkle H = .ok ())
    ∧ ∀ M, (MbuCircuit.mk ih S Pre M ids1 mps1 N1 D).merkle H = .ok () →
        (MbuCircuit.mk ih (S + N1) M Post ids2 mps2 N2 D).merkle H = .ok () →
        (MbuCircuit.mk ih S Pre Post (ids1 ++ ids2) (mps1 ++ mps2) (N1 + N2) D).finalRoot H
            = (MbuCircuit.mk ih (S + N1) M Post ids2 mps2 N2 D).finalRoot H
          ∧ (MbuCircuit.mk ih S Pre Post (ids1 ++ ids2) (mps1 ++ mps2) (N1 + N2) D).finalRoot H
            = .ok (some Post) := by
  have hiff := merkle_split H ih ih ih S Pre Post D N1 N2 ids1 ids2 mps1 mps2 h1 h2 hi hm
  refine ⟨hiff, ?_⟩
  intro M hA hB
  have hw := finalRoot_of_merkle_ok H _ (hiff.2 ⟨M, hA, hB⟩)
  have hs := finalRoot_of_merkle_ok H _ hB
  simp only at hw hs
  exact ⟨by rw [hw, hs], hw⟩

theorem batch_concat_iff_witness :
    (1 ≤ 1 ∧ 1 ≤ 1 ∧ [7].length = 1 ∧ [[0]].length = 1)
      ∧ (MbuCircuit.mk 0 0 (Nat.pair 0 0) (Nat.pair 7 8) ([7] ++ [8]) ([[0]] ++ [[7]])
          (1 + 1) 1).merkle Nat.pair = .ok () :=
  ⟨by decide,
    (batch_concat_iff Nat.pair 0 0 (Nat.pair 0 0) (Nat.pair 7 8) 1 1 1 [7] [8] [[0]] [[7]]
      (by decide) (by decide) rfl rfl).1.2 ⟨Nat.pair 7 0, by decide, by decide⟩⟩

/-- C4 as stated fails: at depth 1 and start index 2 the claim pairs the
truncated bit `2 / 2 ^ 0 % 2 = 0` with the sibling, so that the batch below,
consistent with that bit, would be accepted; `Define` has no direction bits at
all there and rejects the batch in the bit decomposition. -/
theorem currentPath_not_truncated :
    (¬ ∃ bits, (MbuCircuit.mk 0 2 (Nat.pair 0 5) (Nat.pair 7 5) [7] [[5]] 1 1).currentPath 0
          = .ok bits ∧ bits[0]? = some (2 / 2 ^ 0 % 2))
      ∧ VerifyProof Nat.pair [emptyLeaf, 5] [2 / 2 ^ 0 % 2] = .ok (Nat.pair 0 5)
      ∧ VerifyProof Nat.pair [7, 5] [2 / 2 ^ 0 % 2] = .ok (Nat.pair 7 5)
      ∧ (MbuCircuit.mk 0 2 (Nat.pair 0 5) (Nat.pair 7 5) [7] [[5]] 1 1).merkle Nat.pair
          = .error .binaryDecomposition := by
  refine ⟨?_, by decide, by decide, by decide⟩
  rintro ⟨bits, h, _⟩
  have hc : (MbuCircuit.mk 0 2 (Nat.pair 0 5) (Nat.pair 7 5) [7] [[5]] 1 1).currentPath 0
      = .error .binaryDecomposition := by decide
  rw [hc] at h
  cases h

/-- C4 (amended): when `StartIndex + i` is below the field order and below
`2 ^ Depth`, the direction bits of insertion `i` are exactly `Depth` bits, bit `k`
being `(StartIndex + i) / 2 ^ k % 2` (zero-padded above the top bit), a function
of `StartIndex`, `i` and `Depth` only, and `VerifyProof` pairs bit `k` with
sibling `k` of a path of length `Depth`; when `StartIndex + i` is `2 ^ Depth` or
more the decomposition is rejected and so is the insertion: nothing is
truncated. -/
theorem currentPath_bits (c : MbuCircuit) (i : Nat)
    (hfield : c.StartIndex + i < fieldModulus) :
    (c.StartIndex + i < 2 ^ c.Depth →
      ∃ bits, c.currentPath i = .ok bits ∧ bits.length = c.Depth ∧
        (∀ k, k < c.Depth → bits[k]? = some ((c.StartIndex + i) / 2 ^ k % 2)) ∧
        ∀ (H : Nat → Nat → Nat) (leaf : Nat) (proof : List Nat), proof.length = c.Depth →
          VerifyProof H (leaf :: proof) bits
            = .ok ((proof.zip ((List.range c.Depth).map fun k => (c.StartIndex + i) / 2 ^ k % 2)).foldl
                (fun acc sb => if sb.2 = 0 then H acc sb.1 else H sb.1 acc) leaf))
    ∧ (2 ^ c.Depth ≤ c.StartIndex + i →
        c.currentPath i = .error .binaryDecomposition ∧
        ∀ (H : Nat → Nat → Nat) (prevRoot : Nat),
          c.insertion H i prevRoot = .error .binaryDecomposition) := by
  constructor
  · intro hfit
    refine ⟨_, currentPath_of_lt c i hfield hfit, by simp, ?_, ?_⟩
    · intro k hk
      simp [List.getElem?_map, List.getElem?_range hk]
    · intro H leaf proof hlen
      have hb : ∀ b ∈ (List.range c.Depth).map (fun k => (c.StartIndex + i) / 2 ^ k % 2),
          b = 0 ∨ b = 1 := by
        intro b hb
        simp only [List.mem_map] at hb
        obtain ⟨k, _, rfl⟩ := hb
        omega
      have := loop_eq_foldRoot H proof _ leaf (by simp [hlen]) hb
      simpa [VerifyProof, foldRoot, combine] using this
  · intro hbig
    have hcp := currentPath_of_ge c i hfield hbig
    refine ⟨hcp, ?_⟩
    intro H prevRoot
    unfold MbuCircuit.insertion
    rw [hcp]
    rfl

theorem currentPath_bits_witness :
    (MbuCircuit.mk 0 5 0 0 [] [] 1 4).StartIndex + 1 < fieldModulus
      ∧ (MbuCircuit.mk 0 5 0 0 [] [] 1 4).StartIndex + 1 < 2 ^ (MbuCircuit.mk 0 5 0 0 [] [] 1 4).Depth
      ∧ (MbuCircuit.mk 0 5 0 0 [] [] 1 4).currentPath 1 = .ok [0, 1, 1, 0]
      ∧ ∃ bits, (MbuCircuit.mk 0 5 0 0 [] [] 1 4).currentPath 1 = .ok bits ∧ bits.length = 4 :=
  ⟨by decide, by decide, by decide,
    match (currentPath_bits (MbuCircuit.mk 0 5 0 0 [] [] 1 4) 1 (by decide)).1 (by decide) with
    | ⟨bits, h, hl, _⟩ => ⟨bits, h, hl⟩⟩

/-- C5: with a hash that is injective on ordered pairs, in a batch whose Merkle
assertions hold, replacing sibling `k` of `MerkleProofs[i]` by a different value
and keeping every other input makes the assertions fail, and the first one to
fail is the empty-slot check of insertion step `i`. -/
theorem tampered_sibling_rejected (H : Nat → Nat → Nat) (hinj : CollisionFree H)
    (c : MbuCircuit) (i k v : Nat) (proof : List Nat)
    (hok : c.merkle H = .ok ()) (hi : i < c.BatchSize)
    (hp : c.MerkleProofs[i]? = some proof) (hk : k < proof.length)
    (hv : proof[k]? ≠ some v) :
    ({ c with MerkleProofs := c.MerkleProofs.set i (proof.set k v) } : MbuCircuit).merkle H
      = .error (.emptySlotMismatch i) := by
  have hfin := finalRoot_of_merkle_ok H c hok
  unfold MbuCircuit.finalRoot at hfin
  have := insertions_withProof H hinj c i k v proof hp hk hv c.BatchSize 0 c.PreRoot none _
    (Nat.zero_le i) (by omega) hfin
  have hfr : (c.withProof i (proof.set k v)).finalRoot H = .error (.emptySlotMismatch i) := this
  show (c.withProof i (proof.set k v)).merkle H = _
  unfold MbuCircuit.merkle
  rw [hfr]
  rfl

theorem tampered_sibling_rejected_witness :
    CollisionFree Nat.pair
      ∧ (MbuCircuit.mk 0 0 (Nat.pair 0 0) (Nat.pair 7 8) [7, 8] [[0], [7]] 2 1).merkle Nat.pair
          = .ok ()
      ∧ (MbuCircuit.mk 0 0 (Nat.pair 0 0) (Nat.pair 7 8) [7, 8] [[0], [9]] 2 1).merkle Nat.pair
          = .error (.emptySlotMismatch 1) :=
  ⟨fun _ _ _ _ h => Nat.pair_eq_pair.1 h, by decide,
    tampered_sibling_rejected Nat.pair (fun _ _ _ _ h => Nat.pair_eq_pair.1 h)
      (MbuCircuit.mk 0 0 (Nat.pair 0 0) (Nat.pair 7 8) [7, 8] [[0], [7]] 2 1) 1 0 9 [7]
      (by decide) (by decide) (by decide) (by decide) (by decide)⟩

/-- C6: `ValidateShape` returns no error exactly when there are `batchSize`
identity commitments, `batchSize` Merkle proofs and every proof has length
`treeDepth`; `Prove` returns the error of `ValidateShape` whatever the proving
backend; and the outcome of `ValidateShape` depends on the lengths only, not on
any leaf or path value. -/
theorem ValidateShape_iff (p : Parameters) (treeDepth batchSize : Nat) :
    (p.ValidateShape treeDepth batchSize = none ↔
      p.IdComms.length = batchSize ∧ p.MerkleProofs.length = batchSize ∧
        ∀ proof ∈ p.MerkleProofs, proof.length = treeDepth)
    ∧ (∀ (π : Type) (groth16Prove : MbuCircuit → Except ProveError π) (e : ShapeError),
        p.ValidateShape treeDepth batchSize = some e →
        (ProvingSystem.mk treeDepth batchSize).Prove groth16Prove p = .error (.shape e))
    ∧ (∀ q : Parameters, q.IdComms.length = p.IdComms.length →
        q.MerkleProofs.map List.length = p.MerkleProofs.map List.length →
        q.ValidateShape treeDepth batchSize = p.ValidateShape treeDepth batchSize) := by
  refine ⟨?_, ?_, ?_⟩
  · unfold Parameters.ValidateShape
    by_cases h1 : p.IdComms.length = batchSize
    · by_cases h2 : p.MerkleProofs.length = batchSize
      · simp [h1, h2, validate_loop_none]
      · simp [h1, h2]
    · simp [h1]
  · intro π groth16Prove e he
    unfold ProvingSystem.Prove
    simp only [he]
  · intro q hq hm
    have hlen : q.MerkleProofs.length = p.MerkleProofs.length := by
      have := congrArg List.length hm
      simpa using this
    unfold Parameters.ValidateShape
    rw [hq, hlen, validate_loop_congr treeDepth q.MerkleProofs p.MerkleProofs 0 hm]

theorem ValidateShape_iff_witness :
    (Parameters.mk 0 0 1 2 [7] [[5, 6], [4]]).ValidateShape 2 1
        = some (.wrongNumberOfMerkleProofs 2)
      ∧ (ProvingSystem.mk 2 1).Prove (fun _ => (.error .backend : Except ProveError Unit))
          (Parameters.mk 0 0 1 2 [7] [[5, 6], [4]])
        = .error (.shape (.wrongNumberOfMerkleProofs 2))
      ∧ (Parameters.mk 0 0 1 2 [7] [[5, 6]]).ValidateShape 2 1 = none :=
  ⟨by decide,
    (ValidateShape_iff (Parameters.mk 0 0 1 2 [7] [[5, 6], [4]]) 2 1).2.1 Unit
      (fun _ => .error .backend) (.wrongNumberOfMerkleProofs 2) (by decide),
    (ValidateShape_iff (Parameters.mk 0 0 1 2 [7] [[5, 6]]) 2 1).1.2 (by decide)⟩

/-- C7 fails on `ComputeInputHash`: for `StartIndex = 1`, `PreRoot = 1`,
`PostRoot = 2` and one commitment `3`, the hashed bytes are 4 bytes for the
index, one byte for each root and 32 bytes for the commitment, 38 bytes where
the layout has `4 + 32 * 3 = 100`; the circuit writes 800 bits for the same
values. -/
theorem hashedData_roots_not_extended :
    (Parameters.mk 0 1 1 2 [3] []).hashedData
        = [1, 0, 0, 0] ++ [1] ++ [2] ++ (3 :: List.replicate 31 0)
      ∧ (Parameters.mk 0 1 1 2 [3] []).hashedData.length = 38
      ∧ 38 ≠ 4 + 32 * ((Parameters.mk 0 1 1 2 [3] []).IdComms.length + 2)
      ∧ (MbuCircuit.mk 0 1 1 2 [3] [] 1 0).hashInput.map List.length = .ok (8 * 100) := by
  refine ⟨by decide, by decide, by decide, by decide⟩

/-- C8: for a lane `a` of 64 wires and `r < 64`, rotating by `r` and then by
`64 - r` gives back `a` wire for wire (for `r = 0` the second amount is 64), and
every wire of `rot a r` is a wire of `a`: no gate is added. -/
theorem rot_rot_inverse {α : Type} (a : Fin laneSize → α) (r : Nat) (hr : r < laneSize) :
    rot (rot a r) (laneSize - r) = a ∧ ∀ i, ∃ j, rot a r i = a j := by
  constructor
  · funext i
    unfold rot
    congr 1
    apply Fin.ext
    have hi := i.isLt
    simp only [laneSize] at hr hi ⊢
    omega
  · intro i
    exact ⟨_, rfl⟩

theorem rot_rot_inverse_witness :
    0 < laneSize
      ∧ rot (rot (fun i : Fin laneSize => i.val) 0) (laneSize - 0) = (fun i : Fin laneSize => i.val)
      ∧ ∀ i, ∃ j, rot (fun i : Fin laneSize => i.val) 0 i = (fun i : Fin laneSize => i.val) j :=
  ⟨by decide, rot_rot_inverse (fun i : Fin laneSize => i.val) 0 (by decide)⟩

/-- C9 fails on `rot`: output index `i` carries input index `(i + r) mod 64`.
On the lane whose wire `i` is labelled `i`, `rot a 1` has label 2 at index
`(0 + 1) mod 64`, not label 0, which sits at index 63; and the lane of value 1
rotated by 1 has value `2 ^ 63`, not `1 * 2 ^ 1`: with index 0 the least
significant bit this is a rotation to the right. -/
theorem rot_is_right_rotation :
    (∀ (a : Fin laneSize → Nat) (r : Nat) (i : Fin laneSize),
        rot a r i = a ⟨(i.val + r) % laneSize, Nat.mod_lt _ (by decide)⟩)
      ∧ rot (fun i : Fin laneSize => i.val) 1 ⟨(0 + 1) % 64, by decide⟩ = 2
      ∧ rot (fun i : Fin laneSize => i.val) 1 ⟨63, by decide⟩ = 0
      ∧ laneValue (fun i => if i.val = 0 then 1 else 0) = 1
      ∧ laneValue (rot (fun i => if i.val = 0 then 1 else 0) 1) = 2 ^ 63
      ∧ 2 ^ 63 ≠ (1 * 2 ^ 1) % 2 ^ 64 := by
  refine ⟨fun _ _ _ => rfl, by decide, by decide, by decide, by decide, by decide⟩

/-- C10 fails on `Keccak` when the length is a multiple of 1088: for the empty
input the padded slice has 1088 entries, none of them assigned, and for an
input of 1088 bits it has 2176 entries, the last 1088 never assigned; the
smallest multiples of 1088 that are enough are 0 and 1088. -/
theorem padding_aligned_extra_block :
    Keccak.padding [] = .ok (List.replicate 1088 none)
      ∧ ∃ P, Keccak.padding (List.replicate 1088 1) = .ok P ∧ P.length = 2176 ∧
          ∀ k, k < 1088 → P[1088 + k]? = some none := by
  refine ⟨by decide, Keccak.alloc (List.replicate 1088 1), ?_, ?_, ?_⟩
  · exact padding_aligned _ (by simp)
  · rw [alloc_length]
    simp [blockSize]
  · intro k hk
    apply alloc_tail
    · simp
    · simp [blockSize]
      omega

/-- C11 as stated fails: the input of 1081 zero bits is boolean and its length
is not a multiple of 1088, yet the padding step stops on `P[len(inputBits)+7]`,
index 1088 of a slice of 1088 entries, and hands no stream to the absorbing
phase. -/
theorem padding_index_out_of_range :
    (∀ b ∈ List.replicate 1081 0, b = 0 ∨ b = 1)
      ∧ (List.replicate 1081 0).length % 1088 ≠ 0
      ∧ Keccak.padding (List.replicate 1081 0) = .error .indexOutOfRange
      ∧ ¬ ∃ P, Keccak.padding (List.replicate 1081 0) = .ok P := by
  have h : Keccak.padding (List.replicate 1081 0) = .error .indexOutOfRange :=
    padding_overflow _ (by rw [List.length_replicate]; decide)
  refine ⟨fun b hb => Or.inl (List.eq_of_mem_replicate hb),
    by rw [List.length_replicate]; decide, h, ?_⟩
  rintro ⟨P, hP⟩
  rw [h] at hP
  cases hP

/-- C11 (amended): for a boolean input of length `L` with `L mod 1088` between
1 and 1080, and gates with `Xor b 0 = b` on bits, the stream handed to the
absorbing phase has length `L + (1088 - L mod 1088)`, carries the input at
positions `[0, L)`, the value 1 at position `L + 7` and 0 at every other
position from `L` to its end. -/
theorem padded_stream_contents (api : API) (hxor : ∀ b, b = 0 ∨ b = 1 → api.Xor b 0 = b)
    (inputBits : List Nat) (hbool : ∀ b ∈ inputBits, b = 0 ∨ b = 1)
    (h0 : inputBits.length % blockSize ≠ 0) (h1 : inputBits.length % blockSize ≤ 1080) :
    ∃ P stream, Keccak.padding inputBits = .ok P ∧
      Keccak.xorPass api P (Keccak.mask P.length) = .ok stream ∧
      stream.length = inputBits.length + (blockSize - inputBits.length % blockSize) ∧
      (∀ j, j < inputBits.length → stream[j]? = inputBits[j]?) ∧
      stream[inputBits.length + 7]? = some 1 ∧
      ∀ j, inputBits.length ≤ j → j < stream.length → j ≠ inputBits.length + 7 →
        stream[j]? = some 0 := by
  obtain ⟨P, hP, hlen, hget⟩ := padding_ok inputBits h0 h1
  have hall : ∀ p ∈ P, p ≠ none := by
    intro p hp hnone
    subst hnone
    obtain ⟨j, hj, hjp⟩ := List.getElem_of_mem hp
    have h := hget j hj
    rw [List.getElem?_eq_getElem hj, hjp] at h
    by_cases hjL : j < inputBits.length
    · rw [if_pos hjL, List.getElem?_eq_getElem hjL] at h
      cases h
    · rw [if_neg hjL] at h
      by_cases hj7 : j = inputBits.length + 7
      · rw [if_pos hj7] at h; cases h
      · rw [if_neg hj7] at h; cases h
  obtain ⟨stream, hs, hsl, hsget⟩ :=
    xorPass_ok api P (Keccak.mask P.length) hall (by rw [mask_eq]; simp)
  have hmask : ∀ j, j < P.length → (Keccak.mask P.length)[j]? = some 0 := by
    intro j hj
    rw [mask_eq]
    simp [List.getElem?_replicate, hj]
  have hlt : inputBits.length % blockSize < blockSize := Nat.mod_lt _ (by decide)
  refine ⟨P, stream, hP, hs, by rw [hsl, hlen], ?_, ?_, ?_⟩
  · intro j hj
    have hjP : j < P.length := by rw [hlen]; omega
    have hp := hget j hjP
    rw [if_pos hj, List.getElem?_eq_getElem hj] at hp
    rw [hsget j _ 0 hp (hmask j hjP), List.getElem?_eq_getElem hj,
      hxor _ (hbool _ (List.getElem_mem hj))]
  · have hjP : inputBits.length + 7 < P.length := by
      rw [hlen]
      simp only [blockSize] at h1 hlt ⊢
      omega
    have hp := hget _ hjP
    rw [if_neg (by omega), if_pos rfl] at hp
    rw [hsget _ 1 0 hp (hmask _ hjP), hxor 1 (Or.inr rfl)]
  · intro j hj1 hj2 hj3
    have hjP : j < P.length := by rw [← hsl]; exact hj2
    have hp := hget j hjP
    rw [if_neg (by omega), if_neg hj3] at hp
    rw [hsget j 0 0 hp (hmask j hjP), hxor 0 (Or.inl rfl)]

theorem padded_stream_contents_witness :
    (∀ b, b = 0 ∨ b = 1 → gnarkApi.Xor b 0 = b)
      ∧ (∀ b ∈ [1, 0, 1], b = 0 ∨ b = 1)
      ∧ [1, 0, 1].length % blockSize ≠ 0 ∧ [1, 0, 1].length % blockSize ≤ 1080
      ∧ ∃ P stream, Keccak.padding [1, 0, 1] = .ok P ∧
          Keccak.xorPass gnarkApi P (Keccak.mask P.length) = .ok stream ∧
          stream.length = 1088 ∧ stream[0]? = some 1 ∧ stream[1]? = some 0 ∧
          stream[3 + 7]? = some 1 ∧ stream[3 + 6]? = some 0 ∧ stream[1087]? = some 0 :=
  have hx : ∀ b, b = 0 ∨ b = 1 → gnarkApi.Xor b 0 = b := by
    intro b hb
    rcases hb with rfl | rfl <;> decide
  ⟨hx, by decide, by decide, by decide,
    match padded_stream_contents gnarkApi hx [1, 0, 1] (by decide) (by decide) (by decide) with
    | ⟨P, stream, hP, hs, hl, hin, h7, hz⟩ =>
      ⟨P, stream, hP, hs, hl, hin 0 (by decide), hin 1 (by decide), h7,
        hz 9 (by decide) (by rw [hl]; decide) (by decide),
        hz 1087 (by decide) (by rw [hl]; decide) (by decide)⟩⟩

/-- C12 fails on `Keccak`: whatever the gates and the tables, the empty input
and the input of 1088 bits reach `api.Xor` with a wire of `P` that was never
assigned, and the input of 1081 bits stops on the index `len(inputBits)+7` of
`P`; none of them returns 256 output wires. -/
theorem Keccak_not_total :
    (∀ (api : API) (R : Fin stateSize → Fin stateSize → Nat) (RC : Fin 24 → Lane),
        Keccak api R RC [] = .error .nilVariable)
      ∧ (∀ (api : API) (R : Fin stateSize → Fin stateSize → Nat) (RC : Fin 24 → Lane),
        Keccak api R RC (List.replicate 1088 0) = .error .nilVariable)
      ∧ (∀ (api : API) (R : Fin stateSize → Fin stateSize → Nat) (RC : Fin 24 → Lane),
        Keccak api R RC (List.replicate 1081 0) = .error .indexOutOfRange) := by
  have key : ∀ (api : API) (R : Fin stateSize → Fin stateSize → Nat) (RC : Fin 24 → Lane)
      (inputBits : List Nat), inputBits.length % blockSize = 0 →
      Keccak api R RC inputBits = .error .nilVariable := by
    intro api R RC inputBits h
    have hmem : none ∈ Keccak.alloc inputBits := by
      have := alloc_tail inputBits inputBits.length (Nat.le_refl _)
        (by simp only [blockSize] at h ⊢; omega)
      exact List.getElem?_mem this
    unfold Keccak
    rw [padding_aligned inputBits h]
    simp only [bind, Except.bind]
    rw [xorPass_nil api _ _ hmem (by rw [mask_eq]; simp)]
  refine ⟨fun api R RC => key api R RC [] rfl,
    fun api R RC => key api R RC _ (by rw [List.length_replicate]; decide), ?_⟩
  intro api R RC
  unfold Keccak
  rw [padding_overflow _ (by rw [List.length_replicate]; decide)]
  rfl

/-- C13 fails on `Keccak`: the squeezing loops run `x` outermost, so the four
lanes copied to the output are `S[0][0], S[0][1], S[0][2], S[0][3]`, not the
lanes `S[0][0], S[1][0], S[2][0], S[3][0]` that absorbing fills from the first
256 bits of a block.  On the state whose lane `(1, 0)` is all ones and whose
other lanes are zero, output bit 64 is `S[0][1][0] = 0`, not `S[1][0][0] = 1`. -/
theorem squeeze_order_differs :
    ∀ (api : API) (R : Fin stateSize → Fin stateSize → Nat) (RC : Fin 24 → Lane),
      ∃ Z, Keccak.squeeze api R RC outSize (fun _ => none, 0)
            (fun x y _ => if x = 1 ∧ y = 0 then 1 else 0) = .ok Z
        ∧ Z ⟨64, by decide⟩ = some 0
        ∧ rowLanes (fun x y _ => if x = 1 ∧ y = 0 then 1 else 0) ⟨64, by decide⟩ = some 1
        ∧ Z ≠ rowLanes (fun x y _ => if x = 1 ∧ y = 0 then 1 else 0) := by
  intro api R RC
  refine ⟨_, squeeze_eq_columnLanes api R RC 255 _ _, by decide, by decide, ?_⟩
  intro h
  have := congrFun h ⟨64, by decide⟩
  revert this
  decide

/-- C14: for a block start `i` with `i + 1088 ≤ len(P)`, absorbing the block
XORs bit `P[i + k]`, `k < 1088`, into the wire `S[x][y][z]` with `x + 5y = k / 64`
and `z = k % 64`, keeps the 8 lanes with `x + 5y ≥ 17` and is followed by one
`keccakf`; on a stream whose length is a multiple of 1088 the absorbing phase
starts from the all-zero state and does so for each of the `len(P) / 1088`
blocks in turn. -/
theorem absorb_block_layout (api : API) (R : Fin stateSize → Fin stateSize → Nat)
    (RC : Fin 24 → Lane) (P : List Nat) (i : Nat) (S : State) (hi : i + 1088 ≤ P.length) :
    (∃ S2, Keccak.absorbBlock api P i S = .ok S2 ∧
      (∀ (k : Nat) (x y : Fin stateSize) (z : Fin laneSize) (v : Nat), k < 1088 →
        x.val + 5 * y.val = k / 64 → z.val = k % 64 → P[i + k]? = some v →
        S2 x y z = api.Xor (S x y z) v) ∧
      (∀ (x y : Fin stateSize), 17 ≤ x.val + 5 * y.val → S2 x y = S x y) ∧
      (do let T ← Keccak.absorbBlock api P i S; keccakf api R RC T)
        = .ok (keccakfRef api R RC S2))
    ∧ (P.length % 1088 = 0 →
        Keccak.absorb api R RC P
          = .ok ((List.range (P.length / 1088)).foldl
              (fun S k => keccakfRef api R RC (blockXor api P (k * 1088) S))
              (fun _ _ _ => 0))) := by
  refine ⟨⟨blockXor api P i S, absorbBlock_eq api P i S hi, ?_, ?_, ?_⟩, ?_⟩
  · intro k x y z v hk hxy hz hv
    have hlt : x.val + 5 * y.val < 17 := by omega
    have hidx : i + (x.val + 5 * y.val) * 64 + z.val = i + k := by omega
    simp only [blockXor, if_pos hlt, hidx, List.getD_eq_getElem?_getD, hv, Option.getD_some]
  · intro x y hge
    funext z
    simp only [blockXor, if_neg (by omega : ¬ x.val + 5 * y.val < 17)]
  · simp only [absorbBlock_eq api P i S hi, bind, Except.bind, keccakf_eq_keccakfRef]
  · intro hlen
    exact absorb_eq_absorbRef api R RC P hlen

theorem absorb_block_layout_witness :
    0 + 1088 ≤ (List.replicate 1088 1).length
      ∧ ∃ S2, Keccak.absorbBlock gnarkApi (List.replicate 1088 1) 0 (fun _ _ _ => 0) = .ok S2 ∧
          S2 1 3 5 = gnarkApi.Xor 0 1 ∧ S2 2 3 = (fun _ => 0) :=
  ⟨by decide,
    match absorb_block_layout gnarkApi (fun _ _ => 0) (fun _ _ => 0) (List.replicate 1088 1) 0
      (fun _ _ _ => 0) (by decide) with
    | ⟨⟨S2, h, hx, hk, _⟩, _⟩ =>
      ⟨S2, h, hx (16 * 64 + 5) 1 3 5 1 (by decide) (by decide) (by decide) (by decide),
        hk 2 3 (by decide)⟩⟩

/-- C15: for every state, round constant and rotation table, `round` returns the
reference round: theta with `C[x]` the XOR of `A[x][0..4]` and `D[x] = C[(x-1)
mod 5] XOR rot(C[(x+1) mod 5], 1)`, then rho and pi with `B[y][(2x+3y) mod 5] =
rot(A'[x][y], R[x][y])`, then chi, then iota on cell `(0, 0)`. -/
theorem round_refines_reference (api : API) (R : Fin stateSize → Fin stateSize → Nat)
    (A : State) (RC : Lane) :
    round api R A RC = .ok (iota api (chi api (rhoPi R (theta api A))) RC)
      ∧ (∀ x y, theta api A x y = xor api (A x y) (thetaD api A x))
      ∧ thetaD api A 0 = xor api (thetaC api A 4) (rot (thetaC api A 1) 1)
      ∧ (∀ (A2 : State) (x y : Fin stateSize),
          rhoPi R A2 y (idx5 (2 * x.val + 3 * y.val)) = rot (A2 x y) (R x y))
      ∧ (∀ (B : State) (x y : Fin stateSize),
          chi api B x y
            = xor api (B x y) (and api (not api (B (idx5 (x.val + 1)) y)) (B (idx5 (x.val + 2)) y)))
      ∧ (∀ (A2 : State) (x y : Fin stateSize), ¬ (x = 0 ∧ y = 0) → iota api A2 RC x y = A2 x y)
      ∧ (∀ A2 : State, iota api A2 RC 0 0 = xor api (A2 0 0) RC) := by
  refine ⟨round_eq_roundRef api R A RC, fun _ _ => rfl, rfl, ?_, ?_, ?_, ?_⟩
  · intro A2 x y
    fin_cases x <;> fin_cases y <;> rfl
  · intro B x y
    fin_cases x <;> rfl
  · intro A2 x y h
    simp only [iota, if_neg h]
  · intro A2
    simp only [iota, and_self, if_true]

/-- C16: the round constant reaches cell `(0, 0)` only: `round A RC` and `round
A RC2` agree on the 24 other cells, and, for gates where XOR with the constant
0 leaves the output of an XOR gate unchanged, cell `(0, 0)` of `round A RC` is
cell `(0, 0)` of `round A 0` XORed with `RC`, wire for wire; `keccakf` applies
`round` 24 times, application `i` with `RC i`, for `i = 0, 1, .., 23` in turn. -/
theorem round_constant_frame (api : API)
    (hzero : ∀ a b, api.Xor (api.Xor a b) 0 = api.Xor a b)
    (R : Fin stateSize → Fin stateSize → Nat) (A : State) (RC RC2 : Lane)
    (RCs : Fin 24 → Lane) :
    (∃ T T2 T0, round api R A RC = .ok T ∧ round api R A RC2 = .ok T2 ∧
        round api R A (fun _ => 0) = .ok T0 ∧
        (∀ x y, ¬ (x = 0 ∧ y = 0) → T x y = T2 x y) ∧
        T 0 0 = xor api (T0 0 0) RC)
      ∧ keccakf api R RCs A
          = (List.finRange 24).foldlM (fun A i => round api R A (RCs i)) A
      ∧ keccakf api R RCs A
          = .ok ((List.finRange 24).foldl
              (fun A i => iota api (chi api (rhoPi R (theta api A))) (RCs i)) A)
      ∧ List.finRange 24
          = [0, 1, 2, 3, 4, 5, 6, 7, 8, 9, 10, 11, 12, 13, 14, 15, 16, 17, 18, 19, 20, 21, 22, 23]
      := by
  refine ⟨⟨_, _, _, round_eq_roundRef api R A RC, round_eq_roundRef api R A RC2,
    round_eq_roundRef api R A _, ?_, ?_⟩, rfl, keccakf_eq_keccakfRef api R RCs A, rfl⟩
  · intro x y h
    simp only [roundRef, iota, if_neg h]
  · funext i
    simp only [roundRef, iota, and_self, if_true, xor, chi, hzero]

theorem round_constant_frame_witness :
    (∀ a b, gnarkApi.Xor (gnarkApi.Xor a b) 0 = gnarkApi.Xor a b)
      ∧ ∃ T T0, round gnarkApi (fun _ _ => 1) (fun _ _ _ => 1) (fun _ => 1) = .ok T ∧
          round gnarkApi (fun _ _ => 1) (fun _ _ _ => 1) (fun _ => 0) = .ok T0 ∧
          T 0 0 = xor gnarkApi (T0 0 0) (fun _ => 1) :=
  ⟨gnarkApi_xor_zero,
    match round_constant_frame gnarkApi gnarkApi_xor_zero (fun _ _ => 1) (fun _ _ _ => 1)
      (fun _ => 1) (fun _ => 1) (fun _ _ => 0) with
    | ⟨⟨T, _, T0, h, _, h0, _, hc⟩, _⟩ => ⟨T, T0, h, h0, hc⟩⟩

/-- C17: `VerifyProof` on `n` siblings and at least `n` direction bits fails on
`AssertIsBoolean` as soon as one of the bits `helper[0..n-1]` is neither 0 nor
1, whatever the leaf and the siblings, and reads no bit beyond the first `n`;
with fewer than `n` bits it never returns a root: it stops on the index out of
range when the bits present are boolean, on `AssertIsBoolean` otherwise. -/
theorem VerifyProof_bits_asserted (H : Nat → Nat → Nat) (leaf : Nat)
    (siblings helper : List Nat) :
    (siblings.length ≤ helper.length →
        (∀ k, k < siblings.length → helper[k]? ≠ some 0 → helper[k]? ≠ some 1 →
          VerifyProof H (leaf :: siblings) helper = .error .notBoolean)
        ∧ VerifyProof H (leaf :: siblings) helper
            = VerifyProof H (leaf :: siblings) (helper.take siblings.length))
      ∧ (helper.length < siblings.length →
          (VerifyProof H (leaf :: siblings) helper = .error .indexOutOfRange ∧
              ∀ b ∈ helper, b = 0 ∨ b = 1)
            ∨ (VerifyProof H (leaf :: siblings) helper = .error .notBoolean ∧
              ∃ b ∈ helper, ¬ (b = 0 ∨ b = 1))) := by
  refine ⟨fun hlen => ⟨fun k hk h0 h1 => ?_, ?_⟩, fun hlen => ?_⟩
  · exact loop_notBoolean H siblings helper leaf k hlen hk h0 h1
  · exact loop_take H siblings helper leaf
  · exact loop_short H siblings helper leaf hlen

theorem VerifyProof_bits_asserted_witness :
    ([5, 6].length ≤ [1, 2, 0].length
        ∧ VerifyProof Nat.pair (7 :: [5, 6]) [1, 2, 0] = .error .notBoolean)
      ∧ ([1].length < [5, 6].length
        ∧ VerifyProof Nat.pair (7 :: [5, 6]) [1] = .error .indexOutOfRange) :=
  ⟨⟨by decide,
      ((VerifyProof_bits_asserted Nat.pair 7 [5, 6] [1, 2, 0]).1 (by decide)).1 1 (by decide)
        (by decide) (by decide)⟩,
    ⟨by decide,
      ((VerifyProof_bits_asserted Nat.pair 7 [5, 6] [1]).2 (by decide)).elim (fun h => h.1)
        (fun h => absurd h.2 (by decide))⟩⟩

/-- C18: the map `(x, y) ↦ (y, (2x + 3y) mod 5)` is a bijection of the 25 cells;
the loop of rho and pi makes 25 assignments to `B`, one to each cell `B[a][b]`
with `a, b < 5`, and leaves the columns 5 to 24 of `B` nil, so that every lane
chi reads has been assigned once. -/
theorem rhoPi_assigns_each_cell_once :
    Function.Bijective
        (fun p : Fin stateSize × Fin stateSize => (p.2, idx5 (2 * p.1.val + 3 * p.2.val)))
      ∧ round.rhoPiWrites.length = 25
      ∧ (∀ a b : Fin stateSize, round.rhoPiWrites.count (a, col25 b) = 1)
      ∧ (∀ w ∈ round.rhoPiWrites, w.2.val < 5)
      ∧ (∀ (R : Fin stateSize → Fin stateSize → Nat) (A : State) (x y : Fin stateSize),
          round.rhoPi R A y (col25 (idx5 (2 * x.val + 3 * y.val))) = some (rot (A x y) (R x y)))
      ∧ (∀ (R : Fin stateSize → Fin stateSize → Nat) (A : State) (a : Fin stateSize)
          (b : Fin (5 * stateSize)), 5 ≤ b.val → round.rhoPi R A a b = none) := by
  refine ⟨by decide, by decide, by decide, by decide, ?_, ?_⟩
  · intro R A x y
    fin_cases x <;> fin_cases y <;> rfl
  · intro R A a b hb
    rw [rhoPi_loop_eq]
    simp only [stateSize] at hb ⊢
    rw [dif_neg (by omega)]

/-- C19: for every batch size `B` the length `L = (B + 2) * 256 + 32` of the
bits `Define` writes to the hash is not a multiple of 1088 and `L mod 1088` is at
most 1080; on every input of that length, and so on the bits of `Define`, the
padding step of `Keccak` takes the padding branch, the index `L + 7` of the set
bit is inside the padded slice and every entry of the slice is assigned. -/
theorem hash_input_is_padded (B : Nat) :
    ((B + 2) * 256 + 32) % 1088 ≠ 0
      ∧ ((B + 2) * 256 + 32) % 1088 ≤ 1080
      ∧ (∀ inputBits : List Nat, inputBits.length = (B + 2) * 256 + 32 →
          ∃ P, Keccak.padding inputBits = .ok P ∧
            P.length = inputBits.length + (1088 - inputBits.length % 1088) ∧
            inputBits.length + 7 < P.length ∧
            P[inputBits.length + 7]? = some (some 1) ∧
            ∀ p ∈ P, p ≠ none)
      ∧ (∀ (c : MbuCircuit) (bits : List Nat), c.BatchSize = B → c.hashInput = .ok bits →
          bits.length = (B + 2) * 256 + 32) := by
  have h0 : ((B + 2) * 256 + 32) % 1088 ≠ 0 := by omega
  have h1 : ((B + 2) * 256 + 32) % 1088 ≤ 1080 := by omega
  refine ⟨h0, h1, ?_, ?_⟩
  · intro inputBits hL
    obtain ⟨P, hP, hlen, hget⟩ := padding_ok inputBits (by rw [hL]; exact h0)
      (by rw [hL]; exact h1)
    have hlt : inputBits.length + 7 < P.length := by
      rw [hlen, hL]
      simp only [blockSize]
      omega
    refine ⟨P, hP, hlen, hlt, ?_, ?_⟩
    · have := hget _ hlt
      rw [if_neg (by omega), if_pos rfl] at this
      exact this
    · intro p hp hnone
      subst hnone
      obtain ⟨j, hj, hjp⟩ := List.getElem_of_mem hp
      have h := hget j hj
      rw [List.getElem?_eq_getElem hj, hjp] at h
      by_cases hjL : j < inputBits.length
      · rw [if_pos hjL, List.getElem?_eq_getElem hjL] at h
        cases h
      · rw [if_neg hjL] at h
        by_cases hj7 : j = inputBits.length + 7
        · rw [if_pos hj7] at h; cases h
        · rw [if_neg hj7] at h; cases h
  · intro c bits hB h
    rw [← hB]
    exact hashInput_length c bits h

theorem hash_input_is_padded_witness :
    (List.replicate 544 1).length = (0 + 2) * 256 + 32
      ∧ (MbuCircuit.mk 0 0 0 0 [] [] 0 0).hashInput.map List.length = .ok 544
      ∧ ∃ P, Keccak.padding (List.replicate 544 1) = .ok P ∧ P.length = 1088 ∧
          P[544 + 7]? = some (some 1) ∧ ∀ p ∈ P, p ≠ none :=
  ⟨by decide, by decide,
    match (hash_input_is_padded 0).2.2.1 (List.replicate 544 1) (by decide) with
    | ⟨P, hP, hl, _, h7, hall⟩ => ⟨P, hP, by rw [hl]; decide, h7, hall⟩⟩

/-- C20: whenever `Keccak` returns, its 256 output wires are the lanes `S[0][0],
S[0][1], S[0][2], S[0][3]`, 64 wires each in that order, of the state `S` left
by the absorbing phase: one pass of the squeezing loops fills the output,
whatever bound the loop is given, and the tables used by the permutation that
follows have no effect on it. -/
theorem Keccak_output_is_column_zero (api : API) (R : Fin stateSize → Fin stateSize → Nat)
    (RC : Fin 24 → Lane) (inputBits : List Nat) :
    (∀ Z, Keccak api R RC inputBits = .ok Z ↔
        ∃ P stream S, Keccak.padding inputBits = .ok P ∧
          Keccak.xorPass api P (Keccak.mask P.length) = .ok stream ∧
          Keccak.absorb api R RC stream = .ok S ∧ Z = columnLanes S)
      ∧ (∀ (S : State) (k : Fin 4) (z : Fin 64),
          columnLanes S (⟨64 * k.val + z.val, by have := k.isLt; have := z.isLt; omega⟩ : Fin 256)
            = some (S 0 (⟨k.val, by have := k.isLt; omega⟩ : Fin 5) z))
      ∧ (∀ (S : State) (fuel : Nat) (R2 : Fin stateSize → Fin stateSize → Nat)
          (RC2 : Fin 24 → Lane),
          Keccak.squeeze api R2 RC2 (fuel + 1) (fun _ => none, 0) S = .ok (columnLanes S))
      ∧ (∀ S : State, (Keccak.squeezePass S (fun _ => none, 0)).2 = outSize)
      ∧ (inputBits.length % 1088 ≠ 0 → inputBits.length % 1088 ≤ 1080 →
          ∃ S, Keccak api R RC inputBits = .ok (columnLanes S)) := by
  have hsq : ∀ S : State,
      Keccak.squeeze api R RC outSize (fun _ => none, 0) S = .ok (columnLanes S) :=
    fun S => squeeze_eq_columnLanes api R RC 255 _ S
  refine ⟨?_, ?_, ?_, ?_, ?_⟩
  · intro Z
    unfold Keccak
    simp only [bind_eq_ok]
    constructor
    · rintro ⟨P, hP, stream, hs, S, hS, hZ⟩
      rw [hsq] at hZ
      exact ⟨P, stream, S, hP, hs, hS, (Except.ok.inj hZ).symm⟩
    · rintro ⟨P, stream, S, hP, hs, hS, hZ⟩
      refine ⟨P, hP, stream, hs, S, hS, ?_⟩
      rw [hsq, hZ]
  · intro S k z
    have hk := k.isLt
    have hz := z.isLt
    unfold columnLanes
    have e1 : idx5 ((64 * k.val + z.val) / 64) = (⟨k.val, by omega⟩ : Fin 5) := by
      apply Fin.ext
      show (64 * k.val + z.val) / 64 % 5 = k.val
      omega
    have e2 : (⟨(64 * k.val + z.val) % 64, Nat.mod_lt _ (by decide)⟩ : Fin laneSize) = z := by
      apply Fin.ext
      show (64 * k.val + z.val) % 64 = z.val
      omega
    simp only [e1, e2]
  · intro S fuel R2 RC2
    exact squeeze_eq_columnLanes api R2 RC2 fuel _ S
  · intro S
    rw [squeezePass_zero]
  · intro h0 h1
    obtain ⟨_, stream, _, _, _, h⟩ := Keccak_returns api R RC inputBits h0 h1
    exact ⟨_, h⟩

theorem Keccak_output_is_column_zero_witness :
    ([1, 0, 1].length % 1088 ≠ 0 ∧ [1, 0, 1].length % 1088 ≤ 1080)
      ∧ ∃ S, Keccak gnarkApi (fun _ _ => 0) (fun _ _ => 0) [1, 0, 1] = .ok (columnLanes S) :=
  ⟨by decide,
    (Keccak_output_is_column_zero gnarkApi (fun _ _ => 0) (fun _ _ => 0) [1, 0, 1]).2.2.2.2
      (by decide) (by decide)⟩

end Mtb

